import Mathlib

/-!
Verification of the `scripts/calculate-rule-tokens.py` utility.

The program is embedded shallowly: file contents are lists of characters,
the tokenizer is an abstract function `tok : Str → Nat` (the source
delegates it to an external library), and the specific regular expressions
used by the source (`^ruleTokenCount:\s*\d+`, `^(alwaysApply:)`,
`^alwaysApply:\s*true`, all with the MULTILINE flag) are embedded as
explicit prefix matchers together with a multiline search and a multiline
substitution that test only at line starts, exactly as the MULTILINE `^`
anchor does.  Character classes `\s` and `\d` are modelled by their ASCII
meaning, which covers every document the repository manipulates.
-/

namespace CalcRuleTokens

/-- Document contents are modelled as lists of characters. -/
abbrev Str := List Char

/-- Convert a Lean string literal to the character-list representation. -/
def str (s : String) : Str := s.data

/-- ASCII meaning of Python's whitespace class used by `str.strip`,
`str.lstrip` and the regex class `\s`. -/
def isSpace (c : Char) : Bool :=
  c == ' ' || c == '\t' || c == '\n' || c == '\r' ||
  c == Char.ofNat 11 || c == Char.ofNat 12

/-- ASCII meaning of the regex digit class `\d`. -/
def isDigit (c : Char) : Bool := '0' ≤ c && c ≤ '9'

/-- Python `str.lstrip()`. -/
def lstrip (s : Str) : Str := s.dropWhile isSpace

/-- Python `str.rstrip()`. -/
def rstrip (s : Str) : Str := (s.reverse.dropWhile isSpace).reverse

/-- Python `str.strip()`: whitespace removed from both ends. -/
def strip (s : Str) : Str := lstrip (rstrip s)

/-- Boolean list-prefix test (Python `str.startswith`). -/
def isPre : Str → Str → Bool
  | [], _ => true
  | _ :: _, [] => false
  | p :: ps, c :: cs => p == c && isPre ps cs

/-- The three-dash delimiter string. -/
def ddd : Str := ['-', '-', '-']

/-- Scan for the first position (counted from `i`) where `pat` occurs as a
substring; `none` when it does not occur.  This is Python `str.find`
restricted to a suffix. -/
def findAux (pat : Str) : Str → Nat → Option Nat
  | [], _ => none
  | c :: rest, i => if isPre pat (c :: rest) then some i else findAux pat rest (i + 1)

/-- Python `content.find("---", 3)` returning `none` instead of `-1`. -/
def findFrom3 (content : Str) : Option Nat := findAux ddd (content.drop 3) 3

/-- Does the string contain `---` as a substring anywhere? -/
def hasDDD : Str → Bool
  | [] => false
  | c :: rest => isPre ddd (c :: rest) || hasDDD rest

/-- Join lines with `\n` separators, inverse of line splitting. -/
def joinLines : List Str → Str
  | [] => []
  | [l] => l
  | l :: l2 :: ls => l ++ '\n' :: joinLines (l2 :: ls)

/-- Source function `extract_content_from_mdc`: find the frontmatter end as
the first occurrence of `---` at offset ≥ 3 and return the left-stripped
remainder, or the whole content when no such occurrence exists. -/
def extract_content_from_mdc (content : Str) : Str :=
  match findFrom3 content with
  | none => content
  | some i => lstrip (content.drop (i + 3))

/-- Literal field name used by the regex `^ruleTokenCount:\s*\d+`. -/
def rtcLit : Str := str "ruleTokenCount:"

/-- Literal field name used by the regexes `^(alwaysApply:)` and
`^alwaysApply:\s*true`. -/
def aaLit : Str := str "alwaysApply:"

/-- Literal boolean used by the regex `^alwaysApply:\s*true`. -/
def trueLit : Str := str "true"

/-- Length of a maximal digit run at the front of a string. -/
def countDigits : Str → Nat
  | [] => 0
  | c :: rest => if isDigit c then countDigits rest + 1 else 0

/-- Length matched by the regex fragment `\s*\d+` at the front of a string:
a greedy whitespace run followed by a non-empty greedy digit run.  The two
classes are disjoint, so greedy matching with backtracking degenerates to
exactly this computation. -/
def wsDigits : Str → Option Nat
  | [] => none
  | c :: rest =>
    if isSpace c then (wsDigits rest).map (· + 1)
    else if isDigit c then some (countDigits rest + 1)
    else none

/-- Prefix matcher for `ruleTokenCount:\s*\d+`, returning the length of the
match when the regex matches at the start of `s`. -/
def matchRTC (s : Str) : Option Nat :=
  if isPre rtcLit s then (wsDigits (s.drop rtcLit.length)).map (· + rtcLit.length)
  else none

/-- Prefix matcher for `alwaysApply:` (the pattern `^(alwaysApply:)`). -/
def matchAA (s : Str) : Option Nat :=
  if isPre aaLit s then some aaLit.length else none

/-- Prefix matcher for `alwaysApply:\s*true`. -/
def matchAATrue (s : Str) : Option Nat :=
  if isPre aaLit s then
    let r1 := s.drop aaLit.length
    let ws := r1.takeWhile isSpace
    if isPre trueLit (r1.drop ws.length) then
      some (aaLit.length + ws.length + trueLit.length)
    else none
  else none

/-- Multiline search: test the prefix matcher at the string start and after
every newline, exactly where the MULTILINE `^` anchor matches. -/
def searchAux (m : Str → Option Nat) : Str → Bool → Bool
  | [], atStart => atStart && (m []).isSome
  | c :: rest, atStart =>
    (atStart && (m (c :: rest)).isSome) || searchAux m rest (c == '\n')

/-- Python `re.search` with the MULTILINE flag for a `^`-anchored pattern. -/
def searchML (m : Str → Option Nat) (s : Str) : Bool := searchAux m s true

/-- Multiline substitution worker: replace every non-overlapping match of a
`^`-anchored pattern, scanning left to right; `fuel` only bounds the
recursion and never runs out when initialized with the string length. -/
def subAux (m : Str → Option Nat) (rep : Str) : Nat → Str → Bool → Str
  | _, [], _ => []
  | 0, s, _ => s
  | fuel + 1, c :: rest, atStart =>
    match (if atStart then m (c :: rest) else none) with
    | some k =>
      rep ++ subAux m rep fuel ((c :: rest).drop (max k 1))
        ((((c :: rest).take (max k 1)).getLast? == some '\n'))
    | none => c :: subAux m rep fuel rest (c == '\n')

/-- Python `re.sub` with the MULTILINE flag for a `^`-anchored pattern. -/
def subML (m : Str → Option Nat) (rep : Str) (s : Str) : Str :=
  subAux m rep s.length s true

/-- Decimal digit characters. -/
def digitChar : Nat → Char
  | 0 => '0' | 1 => '1' | 2 => '2' | 3 => '3' | 4 => '4'
  | 5 => '5' | 6 => '6' | 7 => '7' | 8 => '8' | _ => '9'

/-- Decimal rendering worker with explicit fuel. -/
def natStrAux : Nat → Nat → Str
  | 0, _ => []
  | f + 1, n => if n < 10 then [digitChar n] else natStrAux f (n / 10) ++ [digitChar (n % 10)]

/-- Decimal rendering of a natural number, the Python f-string
interpolation of `token_count`. -/
def natStr (n : Nat) : Str := natStrAux (n + 1) n

/-- Replacement text for the first substitution:
`f"ruleTokenCount: \x7btoken_count\x7d"`. -/
def rtcRep (tc : Nat) : Str := str "ruleTokenCount: " ++ natStr tc

/-- Replacement text for the second substitution:
`f"ruleTokenCount: \x7btoken_count\x7d\n\\1"`, where the group `\1` is the
matched literal `alwaysApply:`. -/
def aaRep (tc : Nat) : Str := rtcRep tc ++ '\n' :: aaLit

/-- Frontmatter rewriting step of `update_rule_token_count`: replace an
existing `ruleTokenCount` field, else insert one before `alwaysApply`,
else append one at the end of the frontmatter. -/
def updateFM (frontmatter : Str) (tc : Nat) : Str :=
  if searchML matchRTC frontmatter then
    subML matchRTC (rtcRep tc) frontmatter
  else if searchML matchAA frontmatter then
    subML matchAA (aaRep tc) frontmatter
  else
    frontmatter ++ '\n' :: rtcRep tc

/-- Result of `update_rule_token_count`: the two refusal paths (which print
a warning and return `False` without writing) and the success path carrying
the content written back to the file. -/
inductive UpdateResult
  | noFrontmatter
  | malformed
  | updated (newContent : Str)
deriving DecidableEq

/-- Source function `update_rule_token_count` as a pure function from the
file content and token count to the write outcome. -/
def update_rule_token_count (content : Str) (tc : Nat) : UpdateResult :=
  if isPre ddd content then
    match findFrom3 content with
    | none => .malformed
    | some e =>
      .updated (ddd ++ '\n' :: updateFM (strip ((content.drop 3).take (e - 3))) tc
        ++ '\n' :: ddd ++ content.drop (e + 3))
  else .noFrontmatter

/-- Source function `process_rule_file`: compute the token count of the
extracted body and, in update mode, attempt the frontmatter update. -/
def process_rule_file (tok : Str → Nat) (content : Str) (upd : Bool) :
    Nat × Option UpdateResult :=
  let n := tok (extract_content_from_mdc content)
  (n, if upd then some (update_rule_token_count content n) else none)

/-- File content after `process_rule_file`: unchanged unless a successful
update rewrote it. -/
def fileAfterProcess (tok : Str → Nat) (content : Str) (upd : Bool) : Str :=
  if upd then
    match update_rule_token_count content (tok (extract_content_from_mdc content)) with
    | .updated c => c
    | _ => content
  else content

/-- Reporter test from `main`:
`re.search(r"^alwaysApply:\s*true", content, re.MULTILINE)` over the whole
file content re-read after processing. -/
def isAlwaysApplied (content : Str) : Bool := searchML matchAATrue content

/-- Accumulation loop of `main`: per file, add the token count to the grand
total and, when the re-read content matches the always-apply regex, to the
always-applied subtotal. -/
def runTotals (tok : Str → Nat) (upd : Bool) (files : List Str) : Nat × Nat :=
  files.foldl (fun acc c =>
    let n := (process_rule_file tok c upd).1
    (acc.1 + n, if isAlwaysApplied (fileAfterProcess tok c upd) then acc.2 + n else acc.2))
    (0, 0)

/-- Startup environment of one program run: availability of the tokenizer
import, existence of the rules directory, the optional `--rule` argument
with the named file's existence and content, and the contents of the sorted
`*.mdc` glob. -/
structure Env where
  tokAvailable : Bool
  rulesDirExists : Bool
  singleRule : Bool
  ruleFileExists : Bool
  namedFile : Str
  globFiles : List Str

/-- File list selected by `main`: the single named file or the glob. -/
def selectedFiles (env : Env) : List Str :=
  if env.singleRule then [env.namedFile] else env.globFiles

/-- Process-level outcome of `main`: an early `sys.exit` with a code,
the uncaught `ZeroDivisionError` raised by the summary percentage when the
grand total is zero, or normal completion (exit status 0) carrying the two
totals. -/
inductive MainOutcome
  | earlyExit (code : Nat)
  | divisionByZero
  | completed (total alwaysApplied : Nat)
deriving DecidableEq

/-- Control flow of `main` together with the module-level tiktoken import
guard: the four fatal startup checks in source order, then the processing
loop, then the summary whose percentage divides by the grand total. -/
def mainOutcome (tok : Str → Nat) (upd : Bool) (env : Env) : MainOutcome :=
  if !env.tokAvailable then .earlyExit 1
  else if !env.rulesDirExists then .earlyExit 1
  else if env.singleRule && !env.ruleFileExists then .earlyExit 1
  else if (selectedFiles env).isEmpty then .earlyExit 1
  else
    let t := runTotals tok upd (selectedFiles env)
    if t.1 = 0 then .divisionByZero else .completed t.1 t.2

/-- Disjunction of the four fatal startup situations. -/
def startupFails (env : Env) : Bool :=
  !env.tokAvailable || !env.rulesDirExists ||
  (env.singleRule && !env.ruleFileExists) || (selectedFiles env).isEmpty

/-- Document with a well-formed frontmatter region: the opening delimiter
line, the raw frontmatter text, the closing `---` delimiter, and the raw
remainder `rest`, which begins immediately after the closing `---`. -/
def mkDocFM (fm rest : Str) : Str :=
  ddd ++ '\n' :: (fm ++ '\n' :: (ddd ++ rest))

/-- Document with a structured frontmatter: the opening delimiter line, the
given frontmatter lines, the closing `---` delimiter, and the raw remainder
`rest`, which begins immediately after the closing `---`. -/
def mkDoc (L : List Str) (rest : Str) : Str :=
  mkDocFM (joinLines L) rest

/-- Effect of one multiline substitution on a single line: when the pattern
matches a prefix of the line, the matched span is replaced. -/
def lineRep (m : Str → Option Nat) (rep : Str) (l : Str) : Str :=
  match m l with
  | some k => rep ++ l.drop k
  | none => l

/-- Spec reading of the replacement rule: on a line carrying a
`ruleTokenCount` field, replace the field and its integer value in place,
keeping the rest of the line; other lines are untouched. -/
def replaceInLine (tc : Nat) (l : Str) : Str := lineRep matchRTC (rtcRep tc) l

/-- Spec reading of the insertion rule: insert the new `ruleTokenCount`
line immediately before the (first) `alwaysApply` line. -/
def specInsertBeforeAA (tc : Nat) : List Str → List Str
  | [] => []
  | l :: rest =>
    if isPre aaLit l then rtcRep tc :: l :: rest else l :: specInsertBeforeAA tc rest

/-- Spec reading of the field-placement rules of the Frontmatter Updater,
stated on the list of frontmatter lines: replace an existing
`ruleTokenCount` field in place, else insert before the `alwaysApply`
line, else append a new line at the end of the block. -/
def specPlaceRTC (L : List Str) (tc : Nat) : List Str :=
  if L.any (fun l => (matchRTC l).isSome) then L.map (replaceInLine tc)
  else if L.any (fun l => isPre aaLit l) then specInsertBeforeAA tc L
  else L ++ [rtcRep tc]

/-- Number of frontmatter lines carrying a `ruleTokenCount` field. -/
def countRTCLines (L : List Str) : Nat :=
  (L.filter (fun l => (matchRTC l).isSome)).length

/-- Frontmatter region of a document as the code itself delimits it
(between the leading `---` and the first later `---`, stripped), or `none`
when the code would not recognize a frontmatter. -/
def codeFrontmatter (content : Str) : Option Str :=
  if isPre ddd content then
    match findFrom3 content with
    | some e => some (strip ((content.drop 3).take (e - 3)))
    | none => none
  else none

/-- Spec reading of the reporter subtotal: the summed token counts of the
files whose frontmatter (not the whole file) contains the line-anchored
`alwaysApply: true` field. -/
def specAlwaysSubtotal (tok : Str → Nat) (files : List Str) : Nat :=
  ((files.filter
      (fun c => ((codeFrontmatter c).map (searchML matchAATrue)).getD false)).map
    (fun c => tok (extract_content_from_mdc c))).sum

/-- Well-formedness of a frontmatter presented as a list of lines: at least
one line, no empty line, no embedded newline, no `---` inside a line, every
line that starts with the `ruleTokenCount` field name carries a digit value
on that same line, and the block neither starts nor ends with whitespace. -/
structure WFLines (L : List Str) : Prop where
  ne : L ≠ []
  lines_ne : ∀ l ∈ L, l ≠ []
  noNL : ∀ l ∈ L, ('\n' : Char) ∉ l
  noTriple : ∀ l ∈ L, hasDDD l = false
  rtcTotal : ∀ l ∈ L, isPre rtcLit l = true → (matchRTC l).isSome = true
  headOK : Option.all (fun c => !isSpace c) (joinLines L).head? = true
  lastOK : Option.all (fun c => !isSpace c) (joinLines L).getLast? = true

/-! ## Basic facts about prefixes, search, and the delimiter scan -/

theorem isPre_append_self (p t : Str) : isPre p (p ++ t) = true := by
  induction p with
  | nil => rfl
  | cons a p ih => simp [isPre, ih]

theorem isPre_exists {p s : Str} (h : isPre p s = true) : ∃ t, s = p ++ t := by
  induction p generalizing s with
  | nil => exact ⟨s, rfl⟩
  | cons a p ih =>
    cases s with
    | nil => simp [isPre] at h
    | cons c cs =>
      simp only [isPre, Bool.and_eq_true, beq_iff_eq] at h
      obtain ⟨rfl, h2⟩ := h
      obtain ⟨t, rfl⟩ := ih h2
      exact ⟨t, rfl⟩

theorem isPre_length {p s : Str} (h : isPre p s = true) : p.length ≤ s.length := by
  obtain ⟨t, rfl⟩ := isPre_exists h
  simp

theorem isPre_newline {p : Str} (hp : ('\n' : Char) ∉ p) (fm r : Str) :
    isPre p (fm ++ '\n' :: r) = isPre p fm := by
  induction p generalizing fm with
  | nil => rfl
  | cons a p ih =>
    cases fm with
    | nil =>
      have ha : (a == '\n') = false := by
        simp only [beq_eq_false_iff_ne]
        intro h
        exact hp (by simp [h])
      simp [isPre, ha]
    | cons c fm =>
      have hp2 : ('\n' : Char) ∉ p := fun h => hp (List.mem_cons_of_mem _ h)
      simp [isPre, ih hp2]

theorem hasDDD_newline_cons (s : Str) : hasDDD ('\n' :: s) = hasDDD s := by
  simp [hasDDD, isPre, ddd]

theorem hasDDD_append_newline (A B : Str) :
    hasDDD (A ++ '\n' :: B) = (hasDDD A || hasDDD B) := by
  induction A with
  | nil =>
    simp only [List.nil_append]
    rw [hasDDD_newline_cons]
    simp [hasDDD]
  | cons c A ih =>
    have hnl : ('\n' : Char) ∉ ddd := by decide
    have h1 : isPre ddd ((c :: A) ++ '\n' :: B) = isPre ddd (c :: A) :=
      isPre_newline hnl _ _
    calc hasDDD ((c :: A) ++ '\n' :: B)
        = (isPre ddd ((c :: A) ++ '\n' :: B) || hasDDD (A ++ '\n' :: B)) := rfl
      _ = (isPre ddd (c :: A) || (hasDDD A || hasDDD B)) := by rw [h1, ih]
      _ = (hasDDD (c :: A) || hasDDD B) := by rw [← Bool.or_assoc]; rfl

theorem hasDDD_left_clean (A B : Str) (h : ∀ c ∈ A, c ≠ '-') :
    hasDDD (A ++ B) = hasDDD B := by
  induction A with
  | nil => rfl
  | cons c A ih =>
    have hc : ('-' == c) = false := by
      simp [beq_eq_false_iff_ne]
      exact fun e => (h c (List.mem_cons_self c A)) e.symm
    have h2 : ∀ x ∈ A, x ≠ '-' := fun x hx => h x (List.mem_cons_of_mem _ hx)
    simp [hasDDD, isPre, ddd, hc, ih h2]

theorem hasDDD_tail {c : Char} {s : Str} (h : hasDDD (c :: s) = false) :
    hasDDD s = false := by
  simp only [hasDDD, Bool.or_eq_false_iff] at h
  exact h.2

theorem hasDDD_cons_head {c : Char} {s : Str} (h : hasDDD (c :: s) = false) :
    isPre ddd (c :: s) = false := by
  simp only [hasDDD, Bool.or_eq_false_iff] at h
  exact h.1

theorem hasDDD_drop {s : Str} (k : Nat) (h : hasDDD s = false) :
    hasDDD (s.drop k) = false := by
  induction k generalizing s with
  | zero => simpa using h
  | succ k ih =>
    cases s with
    | nil => simpa using h
    | cons c s => exact ih (hasDDD_tail h)

theorem hasDDD_join (L : List Str) : hasDDD (joinLines L) = L.any hasDDD := by
  induction L with
  | nil => rfl
  | cons l L ih =>
    cases L with
    | nil => simp [joinLines]
    | cons l2 L2 =>
      simp only [joinLines, hasDDD_append_newline, ih, List.any_cons]

theorem findAux_ddd (fm : Str) (rest : Str) :
    ∀ i, hasDDD fm = false →
      findAux ddd (fm ++ '\n' :: '-' :: '-' :: '-' :: rest) i = some (i + fm.length + 1) := by
  induction fm with
  | nil =>
    intro i _
    have c1 : ('-' == '\n') = false := by decide
    have e2 : isPre ddd ('-' :: '-' :: '-' :: rest) = true := by
      simp [isPre, ddd]
    simp [findAux, isPre, ddd, c1, e2]
  | cons c fm ih =>
    intro i hfm
    have hnl : ('\n' : Char) ∉ ddd := by decide
    have h1 : isPre ddd (c :: (fm ++ '\n' :: '-' :: '-' :: '-' :: rest)) = false := by
      have he := isPre_newline (p := ddd) hnl (c :: fm) ('-' :: '-' :: '-' :: rest)
      simp only [List.cons_append] at he
      rw [he]
      exact hasDDD_cons_head hfm
    simp only [List.cons_append, findAux, h1, Bool.false_eq_true, if_false, List.append_eq]
    rw [ih (i + 1) (hasDDD_tail hfm)]
    congr 1
    simp only [List.length_cons]
    omega

/-! ## Locating the closing delimiter of a structured document -/

theorem findFrom3_mkDocFM (fm rest : Str) (h : hasDDD fm = false) :
    findFrom3 (mkDocFM fm rest) = some (fm.length + 5) := by
  have hd : hasDDD ('\n' :: fm) = false := by rw [hasDDD_newline_cons]; exact h
  have key := findAux_ddd ('\n' :: fm) rest 3 hd
  simp only [List.cons_append, List.length_cons] at key
  unfold findFrom3 mkDocFM
  rw [List.drop_left' (show (ddd : Str).length = 3 from rfl)]
  rw [show (ddd : Str) ++ rest = '-' :: '-' :: '-' :: rest from rfl]
  rw [key]
  congr 1
  omega

theorem mkDocFM_eq_append (fm rest : Str) :
    mkDocFM fm rest = (ddd ++ '\n' :: fm ++ '\n' :: ddd) ++ rest := by
  simp [mkDocFM, ddd]

theorem drop_mkDocFM (fm rest : Str) :
    (mkDocFM fm rest).drop (fm.length + 5 + 3) = rest := by
  rw [mkDocFM_eq_append]
  rw [List.drop_left' (by simp [ddd])]

theorem extract_mkDocFM (fm rest : Str) (h : hasDDD fm = false) :
    extract_content_from_mdc (mkDocFM fm rest) = lstrip rest := by
  unfold extract_content_from_mdc
  rw [findFrom3_mkDocFM fm rest h]
  show lstrip ((mkDocFM fm rest).drop (fm.length + 5 + 3)) = lstrip rest
  rw [drop_mkDocFM]

/-! ## Stripping behavior on the frontmatter slice -/

theorem lstrip_eq_self {s : Str}
    (hh : Option.all (fun c => !isSpace c) s.head? = true) : lstrip s = s := by
  unfold lstrip
  cases s with
  | nil => rfl
  | cons c t =>
    have hc : isSpace c = false := by simpa [Option.all] using hh
    simp [List.dropWhile_cons, hc]

theorem rstrip_eq_self {s : Str}
    (hl : Option.all (fun c => !isSpace c) s.getLast? = true) : rstrip s = s := by
  unfold rstrip
  cases hrev : s.reverse with
  | nil =>
    have hs : s = [] := by simpa using congrArg List.reverse hrev
    simp [hs]
  | cons c t =>
    have hc : s.getLast? = some c := by
      rw [← List.head?_reverse, hrev]; rfl
    rw [hc] at hl
    have hcs : isSpace c = false := by simpa [Option.all] using hl
    rw [List.dropWhile_cons]
    simp only [hcs, Bool.false_eq_true, if_false]
    rw [← hrev, List.reverse_reverse]

theorem strip_eq_self {s : Str}
    (hh : Option.all (fun c => !isSpace c) s.head? = true)
    (hl : Option.all (fun c => !isSpace c) s.getLast? = true) : strip s = s := by
  unfold strip
  rw [rstrip_eq_self hl, lstrip_eq_self hh]

theorem rstrip_concat_nl (s : Str) : rstrip (s ++ ['\n']) = rstrip s := by
  unfold rstrip
  rw [List.reverse_append]
  simp only [List.reverse_cons, List.reverse_nil, List.nil_append, List.singleton_append]
  rw [List.dropWhile_cons, if_pos (by decide)]

theorem lstrip_rstrip_nl_cons (s : Str) : lstrip (rstrip ('\n' :: s)) = lstrip (rstrip s) := by
  unfold rstrip
  rw [List.reverse_cons, List.dropWhile_append]
  cases hd : (List.dropWhile isSpace s.reverse).isEmpty with
  | true =>
    simp only [if_pos rfl, if_true]
    have : List.dropWhile isSpace s.reverse = [] := by
      simpa [List.isEmpty_iff] using hd
    rw [this]
    simp [List.dropWhile, isSpace]
  | false =>
    simp only [Bool.false_eq_true, if_false]
    rw [List.reverse_append]
    simp only [List.reverse_cons, List.reverse_nil, List.nil_append, List.singleton_append]
    rw [lstrip, List.dropWhile_cons, if_pos (by decide)]
    rfl

theorem strip_slice (s : Str) : strip ('\n' :: (s ++ ['\n'])) = strip s := by
  unfold strip
  rw [lstrip_rstrip_nl_cons, rstrip_concat_nl]

theorem take_len_append (A B : Str) (n : Nat) :
    (A ++ B).take (A.length + n) = A ++ B.take n := by
  induction A with
  | nil => simp
  | cons c A ih =>
    have he : (c :: A).length + n = (A.length + n) + 1 := by
      simp only [List.length_cons]; omega
    rw [he, List.cons_append, List.take_succ_cons, ih, List.cons_append]

theorem frontmatter_slice (fm rest : Str) :
    ((mkDocFM fm rest).drop 3).take (fm.length + 5 - 3) = '\n' :: (fm ++ ['\n']) := by
  unfold mkDocFM
  rw [List.drop_left' (show (ddd : Str).length = 3 from rfl)]
  have h52 : fm.length + 5 - 3 = ('\n' :: fm).length + 1 := by
    simp only [List.length_cons]; omega
  rw [h52]
  rw [show ('\n' :: (fm ++ '\n' :: (ddd ++ rest)))
      = ('\n' :: fm) ++ ('\n' :: (ddd ++ rest)) from rfl]
  rw [take_len_append]
  simp

/-! ## The updater on a structured document -/

theorem update_mkDocFM (fm rest : Str) (tc : Nat) (h : hasDDD fm = false) :
    update_rule_token_count (mkDocFM fm rest) tc =
      .updated (ddd ++ '\n' :: (updateFM (strip fm) tc ++ '\n' :: (ddd ++ rest))) := by
  unfold update_rule_token_count
  have hpre : isPre ddd (mkDocFM fm rest) = true := by
    unfold mkDocFM; exact isPre_append_self _ _
  rw [if_pos hpre]
  rw [findFrom3_mkDocFM fm rest h]
  show UpdateResult.updated _ = _
  rw [frontmatter_slice, strip_slice, drop_mkDocFM]
  simp [List.cons_append, List.append_assoc]

theorem update_mkDocFM_stripped (fm rest : Str) (tc : Nat) (h : hasDDD fm = false)
    (hh : Option.all (fun c => !isSpace c) fm.head? = true)
    (hl : Option.all (fun c => !isSpace c) fm.getLast? = true) :
    update_rule_token_count (mkDocFM fm rest) tc =
      .updated (mkDocFM (updateFM fm tc) rest) := by
  rw [update_mkDocFM fm rest tc h, strip_eq_self hh hl]
  rfl

/-! ## Character classes -/

theorem isDigit_not_space {c : Char} (h : isDigit c = true) : isSpace c = false := by
  by_contra hs
  rw [Bool.not_eq_false] at hs
  have hd : c = ' ' ∨ c = '\t' ∨ c = '\n' ∨ c = '\r' ∨
      c = Char.ofNat 11 ∨ c = Char.ofNat 12 := by
    simpa [isSpace, or_assoc] using hs
  simp only [isDigit, Bool.and_eq_true, decide_eq_true_eq] at h
  obtain ⟨h1, h2⟩ := h
  rcases hd with hc | hc | hc | hc | hc | hc <;> subst hc <;>
    exact absurd h1 (by decide)

theorem isDigit_ne_of {c d : Char} (h : isDigit c = true) (hd : isDigit d = false) :
    c ≠ d := by
  rintro rfl
  rw [h] at hd
  exact absurd hd (by decide)

/-! ## Decimal rendering of the token count -/

theorem digitChar_digit (n : Nat) : isDigit (digitChar n) = true := by
  unfold digitChar
  split <;> decide

theorem natStrAux_digits (f : Nat) : ∀ (n : Nat), ∀ c ∈ natStrAux f n, isDigit c = true := by
  induction f with
  | zero => intro n c hc; simp [natStrAux] at hc
  | succ f ih =>
    intro n c hc
    simp only [natStrAux] at hc
    by_cases h : n < 10
    · rw [if_pos h] at hc
      simp only [List.mem_singleton] at hc
      subst hc
      exact digitChar_digit n
    · rw [if_neg h] at hc
      simp only [List.mem_append, List.mem_singleton] at hc
      rcases hc with hc | hc
      · exact ih _ _ hc
      · subst hc; exact digitChar_digit _

theorem natStr_digits (n : Nat) : ∀ c ∈ natStr n, isDigit c = true :=
  natStrAux_digits (n + 1) n

theorem natStr_ne_nil (n : Nat) : natStr n ≠ [] := by
  unfold natStr natStrAux
  by_cases h : n < 10 <;> simp [h]

/-! ## Facts about the embedded regex fragment `\s*\d+` -/

theorem countDigits_le (r : Str) : countDigits r ≤ r.length := by
  induction r with
  | nil => simp [countDigits]
  | cons c r ih =>
    simp only [countDigits, List.length_cons]
    by_cases h : isDigit c = true
    · rw [if_pos h]; omega
    · rw [if_neg h]; omega

theorem countDigits_append_nl (r t : Str) :
    countDigits (r ++ '\n' :: t) = countDigits r := by
  induction r with
  | nil =>
    simp only [List.nil_append, countDigits]
    rw [if_neg (by decide)]
  | cons c r ih =>
    simp only [List.cons_append, countDigits, List.append_eq, ih]

theorem countDigits_all_digits (D : Str) (hD : ∀ c ∈ D, isDigit c = true) (X : Str) :
    countDigits (D ++ X) = D.length + countDigits X := by
  induction D with
  | nil => simp
  | cons c D ih =>
    have hc : isDigit c = true := hD c (List.mem_cons_self c D)
    have hD2 : ∀ x ∈ D, isDigit x = true := fun x hx => hD x (List.mem_cons_of_mem _ hx)
    simp only [List.cons_append, countDigits, hc, if_true, List.append_eq, ih hD2,
      List.length_cons]
    omega

theorem countDigits_drop_self (r : Str) : countDigits (r.drop (countDigits r)) = 0 := by
  induction r with
  | nil => simp [countDigits]
  | cons c r ih =>
    simp only [countDigits]
    by_cases h : isDigit c = true
    · rw [if_pos h, List.drop_succ_cons]; exact ih
    · rw [if_neg h, List.drop_zero]
      simp only [countDigits]
      rw [if_neg h]

theorem wsDigits_pos {r : Str} {j : Nat} (h : wsDigits r = some j) : 1 ≤ j := by
  induction r generalizing j with
  | nil => simp [wsDigits] at h
  | cons c r ih =>
    simp only [wsDigits] at h
    by_cases hs : isSpace c = true
    · rw [if_pos hs] at h
      cases hw : wsDigits r with
      | none => rw [hw] at h; simp at h
      | some j2 => rw [hw] at h; simp at h; omega
    · rw [if_neg hs] at h
      by_cases hd : isDigit c = true
      · rw [if_pos hd] at h
        simp at h
        omega
      · rw [if_neg hd] at h; simp at h

theorem wsDigits_le {r : Str} {j : Nat} (h : wsDigits r = some j) : j ≤ r.length := by
  induction r generalizing j with
  | nil => simp [wsDigits] at h
  | cons c r ih =>
    simp only [wsDigits] at h
    by_cases hs : isSpace c = true
    · rw [if_pos hs] at h
      cases hw : wsDigits r with
      | none => rw [hw] at h; exact absurd h (by simp)
      | some j2 =>
        rw [hw] at h
        simp only [Option.map_some', Option.some.injEq] at h
        have := ih hw
        simp only [List.length_cons]
        omega
    · rw [if_neg hs] at h
      by_cases hd : isDigit c = true
      · rw [if_pos hd] at h
        simp only [Option.some.injEq] at h
        have := countDigits_le r
        simp only [List.length_cons]
        omega
      · rw [if_neg hd] at h; exact absurd h (by simp)

theorem wsDigits_append_nl {r : Str} {j : Nat} (h : wsDigits r = some j) (t : Str) :
    wsDigits (r ++ '\n' :: t) = some j := by
  induction r generalizing j with
  | nil => simp [wsDigits] at h
  | cons c r ih =>
    simp only [wsDigits] at h
    simp only [List.cons_append, wsDigits, List.append_eq]
    by_cases hs : isSpace c = true
    · rw [if_pos hs] at h ⊢
      cases hw : wsDigits r with
      | none => rw [hw] at h; exact absurd h (by simp)
      | some j2 =>
        rw [hw] at h
        simp only [Option.map_some', Option.some.injEq] at h
        rw [ih hw]
        simp [h]
    · rw [if_neg hs] at h ⊢
      by_cases hd : isDigit c = true
      · rw [if_pos hd] at h ⊢
        rw [countDigits_append_nl]
        exact h
      · rw [if_neg hd] at h; exact absurd h (by simp)

theorem wsDigits_drop {r : Str} {j : Nat} (h : wsDigits r = some j) :
    countDigits (r.drop j) = 0 := by
  induction r generalizing j with
  | nil => simp [wsDigits] at h
  | cons c r ih =>
    simp only [wsDigits] at h
    by_cases hs : isSpace c = true
    · rw [if_pos hs] at h
      cases hw : wsDigits r with
      | none => rw [hw] at h; exact absurd h (by simp)
      | some j2 =>
        rw [hw] at h
        simp only [Option.map_some', Option.some.injEq] at h
        subst h
        rw [List.drop_succ_cons]
        exact ih hw
    · rw [if_neg hs] at h
      by_cases hd : isDigit c = true
      · rw [if_pos hd] at h
        simp only [Option.some.injEq] at h
        subst h
        rw [List.drop_succ_cons]
        exact countDigits_drop_self r
      · rw [if_neg hd] at h; exact absurd h (by simp)

theorem wsDigits_all_digits (D : Str) (hD : ∀ c ∈ D, isDigit c = true) (hne : D ≠ [])
    (X : Str) : wsDigits (D ++ X) = some (D.length + countDigits X) := by
  cases D with
  | nil => exact absurd rfl hne
  | cons c D =>
    have hc : isDigit c = true := hD c (List.mem_cons_self c D)
    have hD2 : ∀ x ∈ D, isDigit x = true := fun x hx => hD x (List.mem_cons_of_mem _ hx)
    simp only [List.cons_append, wsDigits, isDigit_not_space hc, Bool.false_eq_true,
      if_false, hc, if_true, List.append_eq, countDigits_all_digits D hD2 X,
      List.length_cons]
    congr 1
    omega

theorem getLast?_cons_of_ne {c : Char} {X : Str} (h : X ≠ []) :
    (c :: X).getLast? = X.getLast? := by
  cases X with
  | nil => exact absurd rfl h
  | cons x X2 => exact List.getLast?_cons_cons

theorem countDigits_take_last {r : Str} (h1 : 1 ≤ countDigits r) :
    ∃ d, isDigit d = true ∧ (r.take (countDigits r)).getLast? = some d := by
  induction r with
  | nil => simp [countDigits] at h1
  | cons c r ih =>
    by_cases hd : isDigit c = true
    · have he : countDigits (c :: r) = countDigits r + 1 := by simp [countDigits, hd]
      rw [he, List.take_succ_cons]
      by_cases hz : 1 ≤ countDigits r
      · obtain ⟨d, hdig, hlast⟩ := ih hz
        refine ⟨d, hdig, ?_⟩
        have hrne : r ≠ [] := by
          intro hr; rw [hr] at hz; simp [countDigits] at hz
        have htne : r.take (countDigits r) ≠ [] := by
          rw [Ne, List.take_eq_nil_iff]
          push_neg
          exact ⟨by omega, hrne⟩
        rw [getLast?_cons_of_ne htne, hlast]
      · have hz0 : countDigits r = 0 := by omega
        rw [hz0, List.take_zero]
        exact ⟨c, hd, rfl⟩
    · have he : countDigits (c :: r) = 0 := by simp [countDigits, hd]
      rw [he] at h1
      omega

theorem wsDigits_take_last {r : Str} {j : Nat} (h : wsDigits r = some j) :
    ∃ d, isDigit d = true ∧ (r.take j).getLast? = some d := by
  induction r generalizing j with
  | nil => simp [wsDigits] at h
  | cons c r ih =>
    simp only [wsDigits] at h
    by_cases hs : isSpace c = true
    · rw [if_pos hs] at h
      cases hw : wsDigits r with
      | none => rw [hw] at h; exact absurd h (by simp)
      | some j2 =>
        rw [hw] at h
        simp only [Option.map_some', Option.some.injEq] at h
        subst h
        rw [List.take_succ_cons]
        obtain ⟨d, hdig, hlast⟩ := ih hw
        refine ⟨d, hdig, ?_⟩
        have hrne : r ≠ [] := by
          intro hr; rw [hr] at hw; simp [wsDigits] at hw
        have htne : r.take j2 ≠ [] := by
          rw [Ne, List.take_eq_nil_iff]
          push_neg
          exact ⟨by have := wsDigits_pos hw; omega, hrne⟩
        rw [getLast?_cons_of_ne htne, hlast]
    · rw [if_neg hs] at h
      by_cases hd : isDigit c = true
      · rw [if_pos hd] at h
        simp only [Option.some.injEq] at h
        subst h
        rw [List.take_succ_cons]
        by_cases hz : 1 ≤ countDigits r
        · obtain ⟨d, hdig, hlast⟩ := countDigits_take_last hz
          refine ⟨d, hdig, ?_⟩
          have hrne : r ≠ [] := by
            intro hr; rw [hr] at hz; simp [countDigits] at hz
          have htne : r.take (countDigits r) ≠ [] := by
            rw [Ne, List.take_eq_nil_iff]
            push_neg
            exact ⟨by omega, hrne⟩
          rw [getLast?_cons_of_ne htne, hlast]
        · have hz0 : countDigits r = 0 := by omega
          rw [hz0, List.take_zero]
          exact ⟨c, hd, rfl⟩
      · rw [if_neg hd] at h; exact absurd h (by simp)

/-! ## The two prefix matchers -/

theorem matchRTC_lit_append (r1 : Str) :
    matchRTC (rtcLit ++ r1) = (wsDigits r1).map (· + rtcLit.length) := by
  unfold matchRTC
  rw [if_pos (isPre_append_self _ _), List.drop_left]

theorem matchRTC_none_of_not_pre {l : Str} (h : isPre rtcLit l = false) :
    matchRTC l = none := by
  unfold matchRTC
  rw [h]
  simp

theorem matchRTC_ext {l : Str} (h : (matchRTC l).isSome = true) (t : Str) :
    matchRTC (l ++ '\n' :: t) = matchRTC l := by
  by_cases hp : isPre rtcLit l = true
  · obtain ⟨r1, rfl⟩ := isPre_exists hp
    rw [matchRTC_lit_append] at h ⊢
    rw [List.append_assoc, matchRTC_lit_append]
    cases hw : wsDigits r1 with
    | none => rw [hw] at h; simp at h
    | some j => rw [wsDigits_append_nl hw]
  · have hp2 : isPre rtcLit l = false := by simpa using hp
    rw [matchRTC_none_of_not_pre hp2] at h
    simp at h

theorem matchRTC_bounds {l : Str} {k : Nat} (h : matchRTC l = some k) :
    1 ≤ k ∧ k ≤ l.length ∧ ((l.take k).getLast? == some '\n') = false := by
  by_cases hp : isPre rtcLit l = true
  · obtain ⟨r1, rfl⟩ := isPre_exists hp
    rw [matchRTC_lit_append] at h
    cases hw : wsDigits r1 with
    | none => rw [hw] at h; exact absurd h (by simp)
    | some j =>
      rw [hw] at h
      simp only [Option.map_some', Option.some.injEq] at h
      subst h
      have hj1 := wsDigits_pos hw
      have hjle := wsDigits_le hw
      refine ⟨by omega, ?_, ?_⟩
      · simp only [List.length_append]; omega
      · have harith : j + (rtcLit : Str).length = (rtcLit : Str).length + j := by omega
        rw [harith, take_len_append]
        obtain ⟨d, hdig, hlast⟩ := wsDigits_take_last hw
        rw [List.getLast?_append, hlast]
        have hne : d ≠ '\n' := isDigit_ne_of hdig (by decide)
        simp [Option.or, hne]
  · have hp2 : isPre rtcLit l = false := by simpa using hp
    rw [matchRTC_none_of_not_pre hp2] at h
    exact absurd h (by simp)

theorem matchAA_ext (l t : Str) : matchAA (l ++ '\n' :: t) = matchAA l := by
  unfold matchAA
  rw [isPre_newline (by decide) l t]

theorem matchAA_isSome (l : Str) : (matchAA l).isSome = isPre aaLit l := by
  unfold matchAA
  by_cases hp : isPre aaLit l = true
  · rw [if_pos hp, hp]; rfl
  · have hp2 : isPre aaLit l = false := by simpa using hp
    rw [hp2]; simp

theorem matchAA_bounds {l : Str} {k : Nat} (h : matchAA l = some k) :
    1 ≤ k ∧ k ≤ l.length ∧ ((l.take k).getLast? == some '\n') = false := by
  unfold matchAA at h
  by_cases hp : isPre aaLit l = true
  · rw [if_pos hp] at h
    simp only [Option.some.injEq] at h
    subst h
    obtain ⟨r1, rfl⟩ := isPre_exists hp
    refine ⟨by decide, by simp [List.length_append], ?_⟩
    rw [List.take_left]
    decide
  · have hp2 : isPre aaLit l = false := by simpa using hp
    rw [hp2] at h
    simp at h

/-! ## Multiline search over joined lines -/

theorem beq_nl_false {c : Char} (h : c ≠ '\n') : (c == '\n') = false := by
  simp only [beq_eq_false_iff_ne]
  exact h

theorem not_nl_of_not_mem {c : Char} {l : Str} (h : ('\n' : Char) ∉ c :: l) : c ≠ '\n' := by
  intro hc
  exact h (by simp [hc])

theorem not_mem_tail {c : Char} {x : Char} {l : Str} (h : c ∉ x :: l) : c ∉ l :=
  fun hm => h (List.mem_cons_of_mem _ hm)

theorem searchAux_false_end {m : Str → Option Nat} {l : Str} (hnl : ('\n' : Char) ∉ l) :
    searchAux m l false = false := by
  induction l with
  | nil => rfl
  | cons c l ih =>
    have hc : (c == '\n') = false := beq_nl_false (not_nl_of_not_mem hnl)
    simp only [searchAux, Bool.false_and, Bool.false_or, hc]
    exact ih (not_mem_tail hnl)

theorem searchAux_false_line {m : Str → Option Nat} {l : Str} (hnl : ('\n' : Char) ∉ l)
    (t : Str) : searchAux m (l ++ '\n' :: t) false = searchAux m t true := by
  induction l with
  | nil =>
    simp only [List.nil_append, searchAux, Bool.false_and, Bool.false_or]
    rw [show (('\n' : Char) == '\n') = true from by decide]
  | cons c l ih =>
    have hc : (c == '\n') = false := beq_nl_false (not_nl_of_not_mem hnl)
    simp only [List.cons_append, searchAux, Bool.false_and, Bool.false_or, hc]
    exact ih (not_mem_tail hnl)

theorem searchML_cons_line {m : Str → Option Nat} {l : Str} (hnl : ('\n' : Char) ∉ l)
    (t : Str) :
    searchML m (l ++ '\n' :: t) = ((m (l ++ '\n' :: t)).isSome || searchML m t) := by
  cases l with
  | nil =>
    unfold searchML
    simp only [List.nil_append, searchAux, Bool.true_and]
    congr 1
  | cons c l =>
    have hc : (c == '\n') = false := beq_nl_false (not_nl_of_not_mem hnl)
    unfold searchML
    simp only [List.cons_append, searchAux, Bool.true_and, hc]
    congr 1
    exact searchAux_false_line (not_mem_tail hnl) t

theorem searchML_last {m : Str → Option Nat} {l : Str} (hnl : ('\n' : Char) ∉ l)
    (hm0 : m [] = none) : searchML m l = (m l).isSome := by
  cases l with
  | nil =>
    unfold searchML searchAux
    rw [hm0]
    rfl
  | cons c l =>
    have hc : (c == '\n') = false := beq_nl_false (not_nl_of_not_mem hnl)
    unfold searchML
    simp only [searchAux, Bool.true_and, hc]
    rw [searchAux_false_end (not_mem_tail hnl)]
    simp

theorem searchML_join {m : Str → Option Nat} (L : List Str) (hm0 : m [] = none)
    (hnl : ∀ l ∈ L, ('\n' : Char) ∉ l)
    (hext : ∀ l ∈ L, ∀ t, m (l ++ '\n' :: t) = m l) :
    searchML m (joinLines L) = L.any (fun l => (m l).isSome) := by
  induction L with
  | nil =>
    unfold joinLines searchML searchAux
    rw [hm0]
    rfl
  | cons l L ih =>
    cases L with
    | nil =>
      show searchML m l = _
      rw [searchML_last (hnl l (by simp)) hm0]
      simp
    | cons l2 L2 =>
      show searchML m (l ++ '\n' :: joinLines (l2 :: L2)) = _
      rw [searchML_cons_line (hnl l (by simp)), hext l (by simp)]
      rw [ih (fun x hx => hnl x (List.mem_cons_of_mem _ hx))
        (fun x hx => hext x (List.mem_cons_of_mem _ hx))]
      simp

/-! ## Multiline substitution over joined lines -/

theorem subAux_nil (m : Str → Option Nat) (rep : Str) (f : Nat) (a : Bool) :
    subAux m rep f [] a = [] := by
  cases f <;> rfl

theorem subAux_cons_match {m : Str → Option Nat} {rep : Str} {f : Nat} {c : Char}
    {rest : Str} {a : Bool} {k : Nat}
    (hg : (if a then m (c :: rest) else none) = some k) :
    subAux m rep (f + 1) (c :: rest) a
      = rep ++ subAux m rep f ((c :: rest).drop (max k 1))
          (((c :: rest).take (max k 1)).getLast? == some '\n') := by
  simp only [subAux, hg]

theorem subAux_cons_nomatch {m : Str → Option Nat} {rep : Str} {f : Nat} {c : Char}
    {rest : Str} {a : Bool}
    (hg : (if a then m (c :: rest) else none) = none) :
    subAux m rep (f + 1) (c :: rest) a = c :: subAux m rep f rest (c == '\n') := by
  simp only [subAux, hg]

theorem subAux_fuel {m : Str → Option Nat} {rep : Str} :
    ∀ f1 : Nat, ∀ {f2 : Nat} {s : Str} {a : Bool}, s.length ≤ f1 → s.length ≤ f2 →
      subAux m rep f1 s a = subAux m rep f2 s a := by
  intro f1
  induction f1 with
  | zero =>
    intro f2 s a h1 h2
    have hs : s = [] := List.eq_nil_of_length_eq_zero (by omega)
    subst hs
    rw [subAux_nil, subAux_nil]
  | succ f ih =>
    intro f2 s a h1 h2
    cases s with
    | nil => rw [subAux_nil, subAux_nil]
    | cons c rest =>
      cases f2 with
      | zero => simp at h2
      | succ f2 =>
        cases hg : (if a then m (c :: rest) else none) with
        | some k =>
          rw [subAux_cons_match hg, subAux_cons_match hg]
          congr 1
          have hq : 1 ≤ max k 1 := Nat.le_max_right k 1
          have hlen : ((c :: rest).drop (max k 1)).length = rest.length + 1 - max k 1 := by
            rw [List.length_drop]
            simp
          apply ih
          · rw [hlen]
            simp only [List.length_cons] at h1
            omega
          · rw [hlen]
            simp only [List.length_cons] at h2
            omega
        | none =>
          rw [subAux_cons_nomatch hg, subAux_cons_nomatch hg]
          congr 1
          apply ih
          · simp only [List.length_cons] at h1; omega
          · simp only [List.length_cons] at h2; omega

theorem subAux_false_end {m : Str → Option Nat} {rep : Str} {l : Str}
    (hnl : ('\n' : Char) ∉ l) : ∀ f, subAux m rep f l false = l := by
  induction l with
  | nil => intro f; exact subAux_nil m rep f false
  | cons c l ih =>
    intro f
    cases f with
    | zero => rfl
    | succ f =>
      have hc : (c == '\n') = false := beq_nl_false (not_nl_of_not_mem hnl)
      rw [subAux_cons_nomatch (by rfl), hc, ih (not_mem_tail hnl) f]

theorem subAux_false_line {m : Str → Option Nat} {rep : Str} {l : Str}
    (hnl : ('\n' : Char) ∉ l) (t : Str) :
    ∀ f, l.length + 1 + t.length ≤ f →
      subAux m rep f (l ++ '\n' :: t) false
        = l ++ '\n' :: subAux m rep t.length t true := by
  induction l with
  | nil =>
    intro f hf
    cases f with
    | zero => exfalso; simp at hf
    | succ f =>
      simp only [List.nil_append]
      rw [subAux_cons_nomatch (by rfl)]
      rw [show (('\n' : Char) == '\n') = true from by decide]
      congr 1
      apply subAux_fuel
      · simp only [List.length_nil] at hf; omega
      · exact Nat.le_refl _
  | cons c l ih =>
    intro f hf
    cases f with
    | zero => exfalso; simp only [List.length_cons] at hf; omega
    | succ f =>
      have hc : (c == '\n') = false := beq_nl_false (not_nl_of_not_mem hnl)
      simp only [List.cons_append]
      rw [subAux_cons_nomatch (by rfl), hc]
      rw [ih (not_mem_tail hnl) f (by simp only [List.length_cons] at hf; omega)]

theorem drop_append_le (A B : Str) : ∀ k, k ≤ A.length → (A ++ B).drop k = A.drop k ++ B := by
  induction A with
  | nil =>
    intro k hk
    have : k = 0 := by simpa using hk
    simp [this]
  | cons c A ih =>
    intro k hk
    cases k with
    | zero => simp
    | succ k =>
      simp only [List.cons_append, List.drop_succ_cons]
      exact ih k (by simpa using hk)

theorem take_append_le (A B : Str) : ∀ k, k ≤ A.length → (A ++ B).take k = A.take k := by
  induction A with
  | nil =>
    intro k hk
    have : k = 0 := by simpa using hk
    simp [this]
  | cons c A ih =>
    intro k hk
    cases k with
    | zero => simp
    | succ k =>
      simp only [List.cons_append, List.take_succ_cons]
      rw [ih k (by simpa using hk)]

theorem not_mem_drop {c : Char} {l : Str} (h : c ∉ l) (k : Nat) : c ∉ l.drop k :=
  fun hm => h (List.drop_subset k l hm)

theorem subAux_line_match {m : Str → Option Nat} {rep : Str} {l : Str}
    (hnl : ('\n' : Char) ∉ l) (t : Str) {k : Nat}
    (hm : m (l ++ '\n' :: t) = some k) (hk1 : 1 ≤ k) (hkle : k ≤ l.length)
    (hlast : ((l.take k).getLast? == some '\n') = false) :
    ∀ f, l.length + 1 + t.length ≤ f →
      subAux m rep f (l ++ '\n' :: t) true
        = (rep ++ l.drop k) ++ '\n' :: subAux m rep t.length t true := by
  intro f hf
  cases l with
  | nil => exfalso; simp at hkle; omega
  | cons c l0 =>
    cases f with
    | zero => exfalso; simp only [List.length_cons] at hf; omega
    | succ f =>
      have hmax : max k 1 = k := by omega
      have hg : (if (true : Bool) = true then m (c :: (l0 ++ '\n' :: t)) else none)
          = some k := by
        rw [if_pos rfl]
        simpa using hm
      simp only [List.cons_append]
      rw [subAux_cons_match hg, hmax]
      have hdrop : (c :: (l0 ++ '\n' :: t)).drop k = (c :: l0).drop k ++ '\n' :: t := by
        have := drop_append_le (c :: l0) ('\n' :: t) k hkle
        simpa using this
      have htake : (c :: (l0 ++ '\n' :: t)).take k = (c :: l0).take k := by
        have := take_append_le (c :: l0) ('\n' :: t) k hkle
        simpa using this
      rw [hdrop, htake, hlast]
      rw [subAux_false_line (not_mem_drop hnl k) t f ?hlen]
      · simp [List.append_assoc]
      case hlen =>
        rw [List.length_drop]
        simp only [List.length_cons] at hf ⊢
        omega

theorem subAux_line_none {m : Str → Option Nat} {rep : Str} {l : Str}
    (hnl : ('\n' : Char) ∉ l) (t : Str)
    (hm : m (l ++ '\n' :: t) = none) :
    ∀ f, l.length + 1 + t.length ≤ f →
      subAux m rep f (l ++ '\n' :: t) true
        = l ++ '\n' :: subAux m rep t.length t true := by
  intro f hf
  cases l with
  | nil =>
    cases f with
    | zero => exfalso; simp at hf
    | succ f =>
      have hg : (if (true : Bool) = true then m ('\n' :: t) else none) = none := by
        rw [if_pos rfl]
        simpa using hm
      simp only [List.nil_append]
      rw [subAux_cons_nomatch hg]
      rw [show (('\n' : Char) == '\n') = true from by decide]
      congr 1
      apply subAux_fuel
      · simp only [List.length_nil] at hf; omega
      · exact Nat.le_refl _
  | cons c l0 =>
    cases f with
    | zero => exfalso; simp only [List.length_cons] at hf; omega
    | succ f =>
      have hc : (c == '\n') = false := beq_nl_false (not_nl_of_not_mem hnl)
      have hg : (if (true : Bool) = true then m (c :: (l0 ++ '\n' :: t)) else none)
          = none := by
        rw [if_pos rfl]
        simpa using hm
      simp only [List.cons_append]
      rw [subAux_cons_nomatch hg, hc]
      rw [subAux_false_line (not_mem_tail hnl) t f
        (by simp only [List.length_cons] at hf; omega)]

theorem subAux_last_match {m : Str → Option Nat} {rep : Str} {l : Str}
    (hnl : ('\n' : Char) ∉ l) {k : Nat}
    (hm : m l = some k) (hk1 : 1 ≤ k) (hkle : k ≤ l.length)
    (hlast : ((l.take k).getLast? == some '\n') = false) :
    ∀ f, l.length ≤ f → subAux m rep f l true = rep ++ l.drop k := by
  intro f hf
  cases l with
  | nil => exfalso; simp at hkle; omega
  | cons c l0 =>
    cases f with
    | zero => exfalso; simp only [List.length_cons] at hf; omega
    | succ f =>
      have hmax : max k 1 = k := by omega
      have hg : (if (true : Bool) = true then m (c :: l0) else none) = some k := by
        rw [if_pos rfl]
        exact hm
      rw [subAux_cons_match hg, hmax, hlast]
      rw [subAux_false_end (not_mem_drop hnl k) f]

theorem subAux_last_none {m : Str → Option Nat} {rep : Str} {l : Str}
    (hnl : ('\n' : Char) ∉ l) (hm : m l = none) :
    ∀ f, subAux m rep f l true = l := by
  intro f
  cases l with
  | nil => exact subAux_nil m rep f true
  | cons c l0 =>
    cases f with
    | zero => rfl
    | succ f =>
      have hc : (c == '\n') = false := beq_nl_false (not_nl_of_not_mem hnl)
      have hg : (if (true : Bool) = true then m (c :: l0) else none) = none := by
        rw [if_pos rfl]
        exact hm
      rw [subAux_cons_nomatch hg, hc]
      rw [subAux_false_end (not_mem_tail hnl) f]

theorem subML_join {m : Str → Option Nat} {rep : Str} (L : List Str)
    (hnl : ∀ l ∈ L, ('\n' : Char) ∉ l)
    (hext : ∀ l ∈ L, ∀ t, m (l ++ '\n' :: t) = m l)
    (hspan : ∀ l ∈ L, ∀ k, m l = some k →
      1 ≤ k ∧ k ≤ l.length ∧ ((l.take k).getLast? == some '\n') = false) :
    subML m rep (joinLines L) = joinLines (L.map (lineRep m rep)) := by
  induction L with
  | nil => rfl
  | cons l L ih =>
    cases L with
    | nil =>
      show subML m rep l = joinLines [lineRep m rep l]
      unfold subML
      cases hm : m l with
      | none =>
        rw [subAux_last_none (hnl l (by simp)) hm l.length]
        simp [joinLines, lineRep, hm]
      | some k =>
        obtain ⟨hk1, hkle, hlast⟩ := hspan l (by simp) k hm
        rw [subAux_last_match (hnl l (by simp)) hm hk1 hkle hlast l.length (Nat.le_refl _)]
        simp [joinLines, lineRep, hm]
    | cons l2 L2 =>
      have hJ : joinLines (l :: l2 :: L2) = l ++ '\n' :: joinLines (l2 :: L2) := rfl
      have hJ2 : joinLines (lineRep m rep l :: lineRep m rep l2 :: L2.map (lineRep m rep))
          = lineRep m rep l ++ '\n' :: joinLines (lineRep m rep l2 :: L2.map (lineRep m rep)) :=
        rfl
      have hlen : (l ++ '\n' :: joinLines (l2 :: L2)).length
          = l.length + 1 + (joinLines (l2 :: L2)).length := by
        simp only [List.length_append, List.length_cons]
        omega
      have ihr := ih (fun x hx => hnl x (List.mem_cons_of_mem _ hx))
        (fun x hx => hext x (List.mem_cons_of_mem _ hx))
        (fun x hx => hspan x (List.mem_cons_of_mem _ hx))
      unfold subML at ihr ⊢
      rw [hJ]
      cases hm : m l with
      | none =>
        have hm2 : m (l ++ '\n' :: joinLines (l2 :: L2)) = none := by
          rw [hext l (by simp)]
          exact hm
        rw [subAux_line_none (hnl l (by simp)) _ hm2 _ (by rw [hlen])]
        rw [ihr]
        simp only [List.map_cons, hJ2]
        have hl : lineRep m rep l = l := by simp [lineRep, hm]
        rw [hl]
      | some k =>
        obtain ⟨hk1, hkle, hlast⟩ := hspan l (by simp) k hm
        have hm2 : m (l ++ '\n' :: joinLines (l2 :: L2)) = some k := by
          rw [hext l (by simp)]
          exact hm
        rw [subAux_line_match (hnl l (by simp)) _ hm2 hk1 hkle hlast _ (by rw [hlen])]
        rw [ihr]
        simp only [List.map_cons, hJ2]
        have hl : lineRep m rep l = rep ++ l.drop k := by simp [lineRep, hm]
        rw [hl]

/-! ## The frontmatter rewrite on a list of lines -/

theorem matchRTC_nil : matchRTC [] = none := by decide

theorem matchAA_nil : matchAA [] = none := by decide

theorem wf_hext_rtc {L : List Str}
    (h2 : ∀ l ∈ L, isPre rtcLit l = true → (matchRTC l).isSome = true)
    {l : Str} (hl : l ∈ L) (t : Str) : matchRTC (l ++ '\n' :: t) = matchRTC l := by
  by_cases hp : isPre rtcLit l = true
  · exact matchRTC_ext (h2 l hl hp) t
  · have hp2 : isPre rtcLit l = false := by simpa using hp
    rw [matchRTC_none_of_not_pre hp2, matchRTC_none_of_not_pre]
    rw [isPre_newline (by decide) l t]
    exact hp2

theorem joinLines_append_single {L : List Str} (hne : L ≠ []) (x : Str) :
    joinLines L ++ '\n' :: x = joinLines (L ++ [x]) := by
  induction L with
  | nil => exact absurd rfl hne
  | cons l L ih =>
    cases L with
    | nil => rfl
    | cons l2 L2 =>
      show (l ++ '\n' :: joinLines (l2 :: L2)) ++ '\n' :: x
          = l ++ '\n' :: joinLines ((l2 :: L2) ++ [x])
      rw [List.append_assoc]
      rw [show ('\n' :: joinLines (l2 :: L2)) ++ '\n' :: x
          = '\n' :: (joinLines (l2 :: L2) ++ '\n' :: x) from rfl]
      rw [ih (by simp)]

theorem joinLines_split_head (a b : Str) (L : List Str) :
    joinLines ((a ++ '\n' :: b) :: L) = a ++ '\n' :: joinLines (b :: L) := by
  cases L with
  | nil => rfl
  | cons l2 L2 =>
    show (a ++ '\n' :: b) ++ '\n' :: joinLines (l2 :: L2)
        = a ++ '\n' :: joinLines (b :: l2 :: L2)
    rw [List.append_assoc]
    rfl

theorem lineRep_AA_of_pre {l : Str} (hp : isPre aaLit l = true) (tc : Nat) :
    lineRep matchAA (aaRep tc) l = rtcRep tc ++ '\n' :: l := by
  obtain ⟨s, rfl⟩ := isPre_exists hp
  unfold lineRep matchAA
  rw [if_pos (isPre_append_self _ _)]
  show aaRep tc ++ (aaLit ++ s).drop aaLit.length = _
  rw [List.drop_left]
  unfold aaRep
  rw [List.append_assoc]
  rfl

theorem lineRep_AA_of_not {l : Str} (hp : isPre aaLit l = false) (tc : Nat) :
    lineRep matchAA (aaRep tc) l = l := by
  unfold lineRep matchAA
  rw [hp]
  simp

theorem map_AA_no_match {L : List Str} (h : ∀ x ∈ L, isPre aaLit x = false) (tc : Nat) :
    L.map (lineRep matchAA (aaRep tc)) = L := by
  induction L with
  | nil => rfl
  | cons l L ih =>
    rw [List.map_cons, lineRep_AA_of_not (h l (by simp)) tc,
      ih (fun x hx => h x (List.mem_cons_of_mem _ hx))]

theorem filter_head_unique {L : List Str} {p : Str → Bool} {l : Str}
    (h : ((l :: L).filter p).length ≤ 1) (hp : p l = true) : ∀ x ∈ L, p x = false := by
  intro x hx
  by_contra hb
  have hx2 : p x = true := by simpa using hb
  rw [List.filter_cons_of_pos hp] at h
  simp only [List.length_cons] at h
  have hmem : x ∈ L.filter p := List.mem_filter.mpr ⟨hx, hx2⟩
  have hpos : 0 < (L.filter p).length := List.length_pos.mpr (List.ne_nil_of_mem hmem)
  omega

theorem filter_tail_le {L : List Str} {p : Str → Bool} {l : Str}
    (h : ((l :: L).filter p).length ≤ 1) : (L.filter p).length ≤ 1 := by
  by_cases hp : p l = true
  · rw [List.filter_cons_of_pos hp] at h
    simp only [List.length_cons] at h
    omega
  · rw [List.filter_cons_of_neg (by simpa using hp)] at h
    exact h

theorem join_map_AA_eq_insert (L : List Str) (tc : Nat)
    (hAA : (L.filter (fun l => isPre aaLit l)).length ≤ 1) :
    joinLines (L.map (lineRep matchAA (aaRep tc))) = joinLines (specInsertBeforeAA tc L) := by
  induction L with
  | nil => rfl
  | cons l L ih =>
    by_cases hp : isPre aaLit l = true
    · have hrest : ∀ x ∈ L, isPre aaLit x = false := filter_head_unique hAA hp
      rw [List.map_cons, lineRep_AA_of_pre hp tc, map_AA_no_match hrest tc]
      rw [joinLines_split_head]
      unfold specInsertBeforeAA
      rw [if_pos hp]
      rfl
    · rw [List.map_cons, lineRep_AA_of_not (by simpa using hp) tc]
      unfold specInsertBeforeAA
      rw [if_neg (by simpa using hp)]
      have ihr := ih (filter_tail_le hAA)
      cases L with
      | nil => rfl
      | cons l2 L2 =>
        have hins : specInsertBeforeAA tc (l2 :: L2) ≠ [] := by
          unfold specInsertBeforeAA
          by_cases h2 : isPre aaLit l2 = true
          · rw [if_pos h2]; simp
          · rw [if_neg (by simpa using h2)]; simp
        show l ++ '\n' :: joinLines ((l2 :: L2).map (lineRep matchAA (aaRep tc)))
            = joinLines (l :: specInsertBeforeAA tc (l2 :: L2))
        rw [ihr]
        cases hI : specInsertBeforeAA tc (l2 :: L2) with
        | nil => exact absurd hI hins
        | cons a A => rfl

theorem updateFM_join (L : List Str) (tc : Nat)
    (hne : L ≠ [])
    (hnl : ∀ l ∈ L, ('\n' : Char) ∉ l)
    (h2 : ∀ l ∈ L, isPre rtcLit l = true → (matchRTC l).isSome = true)
    (hAA : (L.filter (fun l => isPre aaLit l)).length ≤ 1) :
    updateFM (joinLines L) tc = joinLines (specPlaceRTC L tc) := by
  unfold updateFM specPlaceRTC
  rw [searchML_join L matchRTC_nil hnl (fun l hl t => wf_hext_rtc h2 hl t)]
  rw [searchML_join L matchAA_nil hnl (fun l _ t => matchAA_ext l t)]
  simp only [matchAA_isSome]
  by_cases hr : L.any (fun l => (matchRTC l).isSome) = true
  · rw [if_pos hr, if_pos hr]
    rw [subML_join L hnl (fun l hl t => wf_hext_rtc h2 hl t)
      (fun l _ k hm => matchRTC_bounds hm)]
    rfl
  · rw [if_neg hr, if_neg hr]
    by_cases ha : L.any (fun l => isPre aaLit l) = true
    · rw [if_pos ha, if_pos ha]
      rw [subML_join L hnl (fun l _ t => matchAA_ext l t)
        (fun l _ k hm => matchAA_bounds hm)]
      exact join_map_AA_eq_insert L tc hAA
    · rw [if_neg ha, if_neg ha]
      exact joinLines_append_single hne (rtcRep tc)

/-! ## Properties of the replacement text and of replaced lines -/

theorem drop_len_append (A B : Str) (n : Nat) :
    (A ++ B).drop (A.length + n) = B.drop n := by
  induction A with
  | nil => simp
  | cons c A ih =>
    have he : (c :: A).length + n = (A.length + n) + 1 := by
      simp only [List.length_cons]; omega
    rw [he, List.cons_append, List.drop_succ_cons, ih]

theorem rtcRep_split (tc : Nat) : rtcRep tc = rtcLit ++ ' ' :: natStr tc := by
  unfold rtcRep
  rw [show str "ruleTokenCount: " = rtcLit ++ [' '] from by decide]
  rw [List.append_assoc]
  rfl

theorem matchRTC_rep_append (tc : Nat) (X : Str) :
    matchRTC (rtcRep tc ++ X) = some ((rtcRep tc).length + countDigits X) := by
  rw [rtcRep_split, List.append_assoc, matchRTC_lit_append]
  rw [show (' ' :: natStr tc) ++ X = ' ' :: (natStr tc ++ X) from rfl]
  rw [show wsDigits (' ' :: (natStr tc ++ X))
      = (wsDigits (natStr tc ++ X)).map (· + 1) from by
    simp only [wsDigits]
    rw [if_pos (by decide)]]
  rw [wsDigits_all_digits (natStr tc) (natStr_digits tc) (natStr_ne_nil tc) X]
  simp only [Option.map_some', Option.some.injEq]
  simp only [List.length_append, List.length_cons]
  omega

theorem matchRTC_rep (tc : Nat) : matchRTC (rtcRep tc) = some (rtcRep tc).length := by
  have := matchRTC_rep_append tc []
  simpa [countDigits] using this

theorem matchRTC_drop_no_digit {l : Str} {k : Nat} (h : matchRTC l = some k) :
    countDigits (l.drop k) = 0 := by
  by_cases hp : isPre rtcLit l = true
  · obtain ⟨r1, rfl⟩ := isPre_exists hp
    rw [matchRTC_lit_append] at h
    cases hw : wsDigits r1 with
    | none => rw [hw] at h; exact absurd h (by simp)
    | some j =>
      rw [hw] at h
      simp only [Option.map_some', Option.some.injEq] at h
      subst h
      have he : j + (rtcLit : Str).length = (rtcLit : Str).length + j := by omega
      rw [he, drop_len_append]
      exact wsDigits_drop hw
  · rw [matchRTC_none_of_not_pre (by simpa using hp)] at h
    exact absurd h (by simp)

theorem replaceInLine_of_match {l : Str} {k : Nat} (h : matchRTC l = some k) (tc : Nat) :
    replaceInLine tc l = rtcRep tc ++ l.drop k := by
  unfold replaceInLine lineRep
  rw [h]

theorem replaceInLine_of_none {l : Str} (h : matchRTC l = none) (tc : Nat) :
    replaceInLine tc l = l := by
  unfold replaceInLine lineRep
  rw [h]

theorem replaceInLine_rep_fix (tc : Nat) (X : Str) (hX : countDigits X = 0) :
    replaceInLine tc (rtcRep tc ++ X) = rtcRep tc ++ X := by
  rw [replaceInLine_of_match (matchRTC_rep_append tc X) tc, hX]
  rw [show (rtcRep tc).length + 0 = (rtcRep tc).length + 0 from rfl]
  have : ((rtcRep tc) ++ X).drop ((rtcRep tc).length + 0) = X.drop 0 := drop_len_append _ _ 0
  simp only [List.drop_zero] at this
  rw [this]

theorem noDash_str_lit : ∀ c ∈ str "ruleTokenCount: ", c ≠ '-' := by decide

theorem noDash_rtcRep (tc : Nat) : ∀ c ∈ rtcRep tc, c ≠ '-' := by
  intro c hc
  unfold rtcRep at hc
  rw [List.mem_append] at hc
  rcases hc with hc | hc
  · exact noDash_str_lit c hc
  · exact isDigit_ne_of (natStr_digits tc c hc) (by decide)

theorem noNL_rtcRep (tc : Nat) : ('\n' : Char) ∉ rtcRep tc := by
  intro hc
  unfold rtcRep at hc
  rw [List.mem_append] at hc
  rcases hc with hc | hc
  · exact absurd hc (by decide)
  · exact absurd (natStr_digits tc '\n' hc) (by decide)

theorem hasDDD_rtcRep_append (tc : Nat) {X : Str} (hX : hasDDD X = false) :
    hasDDD (rtcRep tc ++ X) = false := by
  rw [hasDDD_left_clean _ _ (noDash_rtcRep tc)]
  exact hX

theorem hasDDD_nil : hasDDD [] = false := rfl

theorem hasDDD_rtcRep (tc : Nat) : hasDDD (rtcRep tc) = false := by
  have := hasDDD_rtcRep_append tc (X := []) hasDDD_nil
  simpa using this

theorem rtcRep_ne_nil (tc : Nat) : rtcRep tc ≠ [] := by
  unfold rtcRep
  intro h
  have := congrArg List.length h
  simp only [List.length_append, List.length_nil] at this
  have h16 : (str "ruleTokenCount: ").length = 16 := by decide
  omega

theorem rtcRep_head (tc : Nat) : (rtcRep tc).head? = some 'r' := by
  rw [show rtcRep tc = 'r' :: (str "uleTokenCount: " ++ natStr tc) from by
    unfold rtcRep
    rw [show str "ruleTokenCount: " = 'r' :: str "uleTokenCount: " from by decide]
    rfl]
  rfl

theorem exists_getLast?_of_ne_nil {x : Str} (h : x ≠ []) :
    ∃ c, x.getLast? = some c ∧ c ∈ x := by
  cases hg : x.getLast? with
  | none => exact absurd (List.getLast?_eq_none_iff.mp hg) h
  | some c =>
    refine ⟨c, rfl, ?_⟩
    exact List.mem_of_mem_getLast? (by rw [hg]; exact rfl)

theorem rtcRep_getLast (tc : Nat) :
    ∃ d, (rtcRep tc).getLast? = some d ∧ isDigit d = true := by
  obtain ⟨c, hg, hm⟩ := exists_getLast?_of_ne_nil (natStr_ne_nil tc)
  refine ⟨c, ?_, natStr_digits tc c hm⟩
  unfold rtcRep
  rw [List.getLast?_append, hg]
  rfl

/-! ## Structure of the rewritten line list -/

theorem specInsert_mem {tc : Nat} {L : List Str} {x : Str}
    (hx : x ∈ specInsertBeforeAA tc L) : x ∈ L ∨ x = rtcRep tc := by
  induction L with
  | nil => simp [specInsertBeforeAA] at hx
  | cons l L ih =>
    unfold specInsertBeforeAA at hx
    by_cases hp : isPre aaLit l = true
    · rw [if_pos hp] at hx
      simp only [List.mem_cons] at hx
      rcases hx with rfl | rfl | hx
      · right; rfl
      · left; simp
      · left; simp [hx]
    · rw [if_neg (by simpa using hp)] at hx
      simp only [List.mem_cons] at hx
      rcases hx with rfl | hx
      · left; simp
      · rcases ih hx with h | h
        · left; simp [h]
        · right; exact h

theorem specPlaceRTC_mem {L : List Str} {tc : Nat} {x : Str}
    (hx : x ∈ specPlaceRTC L tc) :
    x ∈ L ∨ (∃ l, l ∈ L ∧ ∃ k, matchRTC l = some k ∧ x = rtcRep tc ++ l.drop k)
      ∨ x = rtcRep tc := by
  unfold specPlaceRTC at hx
  by_cases h1 : L.any (fun l => (matchRTC l).isSome) = true
  · rw [if_pos h1] at hx
    rw [List.mem_map] at hx
    obtain ⟨l, hl, rfl⟩ := hx
    cases hm : matchRTC l with
    | none =>
      left
      rw [replaceInLine_of_none hm]
      exact hl
    | some k =>
      right; left
      exact ⟨l, hl, k, hm, replaceInLine_of_match hm tc⟩
  · rw [if_neg h1] at hx
    by_cases ha : L.any (fun l => isPre aaLit l) = true
    · rw [if_pos ha] at hx
      rcases specInsert_mem hx with h | h
      · left; exact h
      · right; right; exact h
    · rw [if_neg ha] at hx
      rw [List.mem_append] at hx
      rcases hx with h | h
      · left; exact h
      · right; right; simpa using h

theorem specPlace_noNL {L : List Str} {tc : Nat} (hnl : ∀ l ∈ L, ('\n' : Char) ∉ l) :
    ∀ x ∈ specPlaceRTC L tc, ('\n' : Char) ∉ x := by
  intro x hx
  rcases specPlaceRTC_mem hx with h | ⟨l, hl, k, _, rfl⟩ | rfl
  · exact hnl x h
  · intro hc
    rw [List.mem_append] at hc
    rcases hc with hc | hc
    · exact noNL_rtcRep tc hc
    · exact not_mem_drop (hnl l hl) k hc
  · exact noNL_rtcRep tc

theorem specPlace_noTriple {L : List Str} {tc : Nat}
    (h3 : ∀ l ∈ L, hasDDD l = false) :
    ∀ x ∈ specPlaceRTC L tc, hasDDD x = false := by
  intro x hx
  rcases specPlaceRTC_mem hx with h | ⟨l, hl, k, _, rfl⟩ | rfl
  · exact h3 x h
  · exact hasDDD_rtcRep_append tc (hasDDD_drop k (h3 l hl))
  · exact hasDDD_rtcRep tc

theorem specPlace_rtcTotal {L : List Str} {tc : Nat}
    (h2 : ∀ l ∈ L, isPre rtcLit l = true → (matchRTC l).isSome = true) :
    ∀ x ∈ specPlaceRTC L tc, isPre rtcLit x = true → (matchRTC x).isSome = true := by
  intro x hx
  rcases specPlaceRTC_mem hx with h | ⟨l, hl, k, _, rfl⟩ | rfl
  · exact h2 x h
  · intro _
    rw [matchRTC_rep_append]
    rfl
  · intro _
    rw [matchRTC_rep]
    rfl

theorem specPlace_lines_ne {L : List Str} {tc : Nat} (hne : ∀ l ∈ L, l ≠ []) :
    ∀ x ∈ specPlaceRTC L tc, x ≠ [] := by
  intro x hx
  rcases specPlaceRTC_mem hx with h | ⟨l, hl, k, _, rfl⟩ | rfl
  · exact hne x h
  · intro hc
    rw [List.append_eq_nil] at hc
    exact rtcRep_ne_nil tc hc.1
  · exact rtcRep_ne_nil tc

theorem specPlace_ne_nil {L : List Str} {tc : Nat} (hne : L ≠ []) :
    specPlaceRTC L tc ≠ [] := by
  unfold specPlaceRTC
  by_cases h1 : L.any (fun l => (matchRTC l).isSome) = true
  · rw [if_pos h1]
    simpa using hne
  · rw [if_neg h1]
    by_cases ha : L.any (fun l => isPre aaLit l) = true
    · rw [if_pos ha]
      cases L with
      | nil => exact absurd rfl hne
      | cons l L =>
        unfold specInsertBeforeAA
        by_cases hp : isPre aaLit l = true
        · rw [if_pos hp]; simp
        · rw [if_neg (by simpa using hp)]; simp
    · rw [if_neg ha]
      simp

theorem specInsert_mem_rtc {tc : Nat} {L : List Str}
    (ha : L.any (fun l => isPre aaLit l) = true) :
    rtcRep tc ∈ specInsertBeforeAA tc L := by
  induction L with
  | nil => simp at ha
  | cons l L ih =>
    unfold specInsertBeforeAA
    by_cases hp : isPre aaLit l = true
    · rw [if_pos hp]; simp
    · rw [if_neg (by simpa using hp)]
      rw [List.any_cons] at ha
      have ha2 : L.any (fun l => isPre aaLit l) = true := by
        rcases Bool.or_eq_true_iff.mp ha with h | h
        · exact absurd h hp
        · exact h
      exact List.mem_cons_of_mem _ (ih ha2)

theorem specPlace_any_rtc (L : List Str) (tc : Nat) :
    (specPlaceRTC L tc).any (fun l => (matchRTC l).isSome) = true := by
  unfold specPlaceRTC
  by_cases h1 : L.any (fun l => (matchRTC l).isSome) = true
  · rw [if_pos h1]
    obtain ⟨l, hl, hs⟩ := List.any_eq_true.mp h1
    obtain ⟨k, hk⟩ := Option.isSome_iff_exists.mp hs
    apply List.any_eq_true.mpr
    refine ⟨replaceInLine tc l, List.mem_map_of_mem _ hl, ?_⟩
    rw [replaceInLine_of_match hk tc, matchRTC_rep_append]
    rfl
  · rw [if_neg h1]
    by_cases ha : L.any (fun l => isPre aaLit l) = true
    · rw [if_pos ha]
      apply List.any_eq_true.mpr
      refine ⟨rtcRep tc, specInsert_mem_rtc ha, ?_⟩
      rw [matchRTC_rep]
      rfl
    · rw [if_neg ha]
      apply List.any_eq_true.mpr
      refine ⟨rtcRep tc, by simp, ?_⟩
      rw [matchRTC_rep]
      rfl

/-! ## Head and last characters of the rewritten frontmatter block -/

theorem joinLines_head {l : Str} (L : List Str) (hl : l ≠ []) :
    (joinLines (l :: L)).head? = l.head? := by
  cases L with
  | nil => rfl
  | cons l2 L2 =>
    cases l with
    | nil => exact absurd rfl hl
    | cons c l0 => rfl

theorem joinLines_ne_nil_last {L : List Str} {l : Str} (hl : l ≠ []) :
    joinLines (L ++ [l]) ≠ [] := by
  induction L with
  | nil => simpa using hl
  | cons a L ih =>
    cases hc : L ++ [l] with
    | nil => exact absurd (congrArg List.length hc) (by simp)
    | cons b B =>
      show joinLines (a :: (L ++ [l])) ≠ []
      rw [hc]
      show a ++ '\n' :: joinLines (b :: B) ≠ []
      simp

theorem joinLines_getLast (L : List Str) {l : Str} (hl : l ≠ []) :
    (joinLines (L ++ [l])).getLast? = l.getLast? := by
  induction L with
  | nil => rfl
  | cons a L ih =>
    cases hc : L ++ [l] with
    | nil => exact absurd (congrArg List.length hc) (by simp)
    | cons b B =>
      have h1 : joinLines ((a :: L) ++ [l]) = a ++ '\n' :: joinLines (L ++ [l]) := by
        show joinLines (a :: (L ++ [l])) = a ++ '\n' :: joinLines (L ++ [l])
        rw [hc]
        rfl
      rw [h1, List.getLast?_append]
      rw [getLast?_cons_of_ne (joinLines_ne_nil_last hl), ih]
      obtain ⟨c, hg, _⟩ := exists_getLast?_of_ne_nil hl
      rw [hg]
      rfl

theorem specInsert_concat (tc : Nat) (T : List Str) (b : Str) :
    ∃ T2, specInsertBeforeAA tc (T ++ [b]) = T2 ++ [b] := by
  induction T with
  | nil =>
    rw [List.nil_append]
    simp only [specInsertBeforeAA]
    by_cases hp : isPre aaLit b = true
    · rw [if_pos hp]
      exact ⟨[rtcRep tc], rfl⟩
    · rw [if_neg (by simpa using hp)]
      exact ⟨[], rfl⟩
  | cons a T ih =>
    rw [List.cons_append]
    simp only [specInsertBeforeAA]
    by_cases hp : isPre aaLit a = true
    · rw [if_pos hp]
      exact ⟨rtcRep tc :: a :: T, by rw [List.cons_append, List.cons_append]⟩
    · rw [if_neg (by simpa using hp)]
      obtain ⟨T2, hT2⟩ := ih
      exact ⟨a :: T2, by rw [hT2]; rfl⟩

theorem option_all_of_some {p : Char → Bool} {o : Option Char} {c : Char}
    (ho : o = some c) (hc : p c = true) : Option.all p o = true := by
  rw [ho]
  simpa [Option.all] using hc

theorem specPlace_headOK {L : List Str} {tc : Nat} (hwf : WFLines L) :
    Option.all (fun c => !isSpace c) (joinLines (specPlaceRTC L tc)).head? = true := by
  cases L with
  | nil => exact absurd rfl hwf.ne
  | cons h T =>
    have hh_ne : h ≠ [] := hwf.lines_ne h (by simp)
    have hOK : Option.all (fun c => !isSpace c) h.head? = true := by
      rw [← joinLines_head T hh_ne]
      exact hwf.headOK
    unfold specPlaceRTC
    by_cases h1 : (h :: T).any (fun l => (matchRTC l).isSome) = true
    · rw [if_pos h1, List.map_cons]
      cases hm : matchRTC h with
      | none =>
        rw [replaceInLine_of_none hm, joinLines_head _ hh_ne]
        exact hOK
      | some k =>
        rw [replaceInLine_of_match hm tc]
        have hne2 : rtcRep tc ++ h.drop k ≠ [] := by
          intro hc
          rw [List.append_eq_nil] at hc
          exact rtcRep_ne_nil tc hc.1
        rw [joinLines_head _ hne2, List.head?_append, rtcRep_head, Option.or_some]
        decide
    · rw [if_neg h1]
      by_cases ha : (h :: T).any (fun l => isPre aaLit l) = true
      · rw [if_pos ha]
        unfold specInsertBeforeAA
        by_cases hp : isPre aaLit h = true
        · rw [if_pos hp]
          rw [joinLines_head _ (rtcRep_ne_nil tc), rtcRep_head]
          decide
        · rw [if_neg (by simpa using hp)]
          rw [joinLines_head _ hh_ne]
          exact hOK
      · rw [if_neg ha, List.cons_append]
        rw [joinLines_head _ hh_ne]
        exact hOK

theorem specPlace_lastOK {L : List Str} {tc : Nat} (hwf : WFLines L) :
    Option.all (fun c => !isSpace c) (joinLines (specPlaceRTC L tc)).getLast? = true := by
  obtain hL | ⟨T, b, rfl⟩ := List.eq_nil_or_concat' L
  · exact absurd hL hwf.ne
  · have hb_ne : b ≠ [] := hwf.lines_ne b (by simp)
    have hOK : Option.all (fun c => !isSpace c) b.getLast? = true := by
      rw [← joinLines_getLast T hb_ne]
      exact hwf.lastOK
    have hrtcLast : Option.all (fun c => !isSpace c) (rtcRep tc).getLast? = true := by
      obtain ⟨d, hg, hdig⟩ := rtcRep_getLast tc
      exact option_all_of_some hg (by simp [isDigit_not_space hdig])
    unfold specPlaceRTC
    by_cases h1 : (T ++ [b]).any (fun l => (matchRTC l).isSome) = true
    · rw [if_pos h1, List.map_append, List.map_cons, List.map_nil]
      cases hm : matchRTC b with
      | none =>
        rw [replaceInLine_of_none hm, joinLines_getLast _ hb_ne]
        exact hOK
      | some k =>
        rw [replaceInLine_of_match hm tc]
        by_cases hd : b.drop k = []
        · rw [hd, List.append_nil, joinLines_getLast _ (rtcRep_ne_nil tc)]
          exact hrtcLast
        · have hne2 : rtcRep tc ++ b.drop k ≠ [] := by
            intro hc
            rw [List.append_eq_nil] at hc
            exact rtcRep_ne_nil tc hc.1
          rw [joinLines_getLast _ hne2, List.getLast?_append]
          have hdl : (b.drop k).getLast? = b.getLast? := by
            conv_rhs => rw [← List.take_append_drop k b]
            rw [List.getLast?_append]
            obtain ⟨c, hg, _⟩ := exists_getLast?_of_ne_nil hd
            rw [hg]
            rfl
          rw [hdl]
          obtain ⟨c, hg, _⟩ := exists_getLast?_of_ne_nil hb_ne
          rw [hg]
          rw [hg] at hOK
          simpa using hOK
    · rw [if_neg h1]
      by_cases ha : (T ++ [b]).any (fun l => isPre aaLit l) = true
      · rw [if_pos ha]
        obtain ⟨T2, hT2⟩ := specInsert_concat tc T b
        rw [hT2, joinLines_getLast _ hb_ne]
        exact hOK
      · rw [if_neg ha, List.append_assoc]
        rw [show ([b] : List Str) ++ [rtcRep tc] = b :: [rtcRep tc] from rfl]
        rw [show (b :: [rtcRep tc] : List Str) = [b] ++ [rtcRep tc] from rfl]
        rw [← List.append_assoc]
        rw [joinLines_getLast _ (rtcRep_ne_nil tc)]
        exact hrtcLast

/-! ## One structured update step -/

theorem specPlace_wf {L : List Str} {tc : Nat} (hwf : WFLines L) :
    WFLines (specPlaceRTC L tc) where
  ne := specPlace_ne_nil hwf.ne
  lines_ne := specPlace_lines_ne hwf.lines_ne
  noNL := specPlace_noNL hwf.noNL
  noTriple := specPlace_noTriple hwf.noTriple
  rtcTotal := specPlace_rtcTotal hwf.rtcTotal
  headOK := specPlace_headOK hwf
  lastOK := specPlace_lastOK hwf

theorem hasDDD_join_of_lines {L : List Str} (h3 : ∀ l ∈ L, hasDDD l = false) :
    hasDDD (joinLines L) = false := by
  rw [hasDDD_join, List.any_eq_false]
  intro x hx
  simp [h3 x hx]

theorem extract_mkDoc (L : List Str) (rest : Str) (h3 : ∀ l ∈ L, hasDDD l = false) :
    extract_content_from_mdc (mkDoc L rest) = lstrip rest := by
  unfold mkDoc
  exact extract_mkDocFM _ _ (hasDDD_join_of_lines h3)

theorem update_mkDoc_eq (L : List Str) (rest : Str) (tc : Nat) (hwf : WFLines L)
    (hAA : (L.filter (fun l => isPre aaLit l)).length ≤ 1) :
    update_rule_token_count (mkDoc L rest) tc
      = .updated (mkDoc (specPlaceRTC L tc) rest) := by
  unfold mkDoc
  rw [update_mkDocFM_stripped (joinLines L) rest tc (hasDDD_join_of_lines hwf.noTriple)
    hwf.headOK hwf.lastOK]
  rw [updateFM_join L tc hwf.ne hwf.noNL hwf.rtcTotal hAA]

/-! ## The rewritten block is a fixed point of further replacement -/

theorem matchRTC_none_of_isSome_false {l : Str} (h : (matchRTC l).isSome = false) :
    matchRTC l = none := by
  cases hm : matchRTC l with
  | none => rfl
  | some k => rw [hm] at h; exact absurd h (by simp)

theorem specPlaceRTC_mem_strong {L : List Str} {tc : Nat} {x : Str}
    (hx : x ∈ specPlaceRTC L tc) :
    (x ∈ L ∧ matchRTC x = none)
    ∨ (∃ l k, matchRTC l = some k ∧ x = rtcRep tc ++ l.drop k)
    ∨ x = rtcRep tc := by
  unfold specPlaceRTC at hx
  by_cases h1 : L.any (fun l => (matchRTC l).isSome) = true
  · rw [if_pos h1] at hx
    rw [List.mem_map] at hx
    obtain ⟨l, hl, rfl⟩ := hx
    cases hm : matchRTC l with
    | none =>
      left
      rw [replaceInLine_of_none hm]
      exact ⟨hl, hm⟩
    | some k =>
      right; left
      exact ⟨l, k, hm, replaceInLine_of_match hm tc⟩
  · have hall : ∀ l ∈ L, matchRTC l = none := by
      intro l hl
      cases hm : matchRTC l with
      | none => rfl
      | some k => exact absurd (List.any_eq_true.mpr ⟨l, hl, by rw [hm]; rfl⟩) h1
    rw [if_neg h1] at hx
    by_cases ha : L.any (fun l => isPre aaLit l) = true
    · rw [if_pos ha] at hx
      rcases specInsert_mem hx with h | h
      · left; exact ⟨h, hall x h⟩
      · right; right; exact h
    · rw [if_neg ha] at hx
      rw [List.mem_append] at hx
      rcases hx with h | h
      · left; exact ⟨h, hall x h⟩
      · right; right; simpa using h

theorem replaceInLine_fix {L : List Str} {tc : Nat} {x : Str}
    (hx : x ∈ specPlaceRTC L tc) : replaceInLine tc x = x := by
  rcases specPlaceRTC_mem_strong hx with ⟨_, hnone⟩ | ⟨l, k, hm, rfl⟩ | rfl
  · exact replaceInLine_of_none hnone tc
  · exact replaceInLine_rep_fix tc _ (matchRTC_drop_no_digit hm)
  · have h := replaceInLine_rep_fix tc [] rfl
    simpa using h

theorem map_replace_fix (L : List Str) (tc : Nat) :
    (specPlaceRTC L tc).map (replaceInLine tc) = specPlaceRTC L tc := by
  have h : ∀ a ∈ specPlaceRTC L tc, replaceInLine tc a = id a :=
    fun a ha => replaceInLine_fix ha
  rw [List.map_congr_left h, List.map_id]

theorem specPlace_idem (L : List Str) (tc : Nat) :
    specPlaceRTC (specPlaceRTC L tc) tc = specPlaceRTC L tc := by
  have hany := specPlace_any_rtc L tc
  have hfix := map_replace_fix L tc
  generalize hM : specPlaceRTC L tc = M at hany hfix ⊢
  unfold specPlaceRTC
  rw [if_pos hany]
  exact hfix

/-! ## Counting the `ruleTokenCount` lines -/

theorem countRTC_map_replace (L : List Str) (tc : Nat) :
    countRTCLines (L.map (replaceInLine tc)) = countRTCLines L := by
  induction L with
  | nil => rfl
  | cons l L ih =>
    unfold countRTCLines at ih ⊢
    rw [List.map_cons]
    cases hm : matchRTC l with
    | none =>
      rw [replaceInLine_of_none hm]
      rw [List.filter_cons_of_neg (p := fun l => (matchRTC l).isSome) (by simp [hm])]
      rw [List.filter_cons_of_neg (p := fun l => (matchRTC l).isSome) (by simp [hm])]
      exact ih
    | some k =>
      rw [replaceInLine_of_match hm tc]
      have h1 : (fun l => (matchRTC l).isSome) (rtcRep tc ++ l.drop k) = true := by
        simp only [matchRTC_rep_append]; rfl
      have h2 : (fun x => (matchRTC x).isSome) l = true := by
        simp only [hm]; rfl
      rw [List.filter_cons_of_pos (p := fun l => (matchRTC l).isSome) h1,
        List.filter_cons_of_pos (p := fun l => (matchRTC l).isSome) h2]
      simp only [List.length_cons]
      omega

theorem countRTC_all_none {L : List Str} (h : ∀ l ∈ L, matchRTC l = none) :
    countRTCLines L = 0 := by
  unfold countRTCLines
  rw [List.length_eq_zero, List.filter_eq_nil_iff]
  intro a ha
  simp [h a ha]

theorem countRTC_insert {L : List Str} (tc : Nat) (h : ∀ l ∈ L, matchRTC l = none)
    (ha : L.any (fun l => isPre aaLit l) = true) :
    countRTCLines (specInsertBeforeAA tc L) = 1 := by
  induction L with
  | nil => simp at ha
  | cons l L ih =>
    simp only [specInsertBeforeAA]
    by_cases hp : isPre aaLit l = true
    · rw [if_pos hp]
      unfold countRTCLines
      have hr : (fun x => (matchRTC x).isSome) (rtcRep tc) = true := by
        simp only [matchRTC_rep]; rfl
      rw [List.filter_cons_of_pos (p := fun l => (matchRTC l).isSome) hr, List.length_cons]
      have h0 : countRTCLines (l :: L) = 0 := countRTC_all_none h
      unfold countRTCLines at h0
      omega
    · rw [if_neg (by simpa using hp)]
      unfold countRTCLines
      rw [List.filter_cons_of_neg (p := fun l => (matchRTC l).isSome)
        (by simp [h l (by simp)])]
      rw [List.any_cons] at ha
      have ha2 : L.any (fun l => isPre aaLit l) = true := by
        rcases Bool.or_eq_true_iff.mp ha with hb | hb
        · exact absurd hb hp
        · exact hb
      exact ih (fun x hx => h x (List.mem_cons_of_mem _ hx)) ha2

theorem countRTC_specPlace (L : List Str) (tc : Nat) (hc : countRTCLines L ≤ 1) :
    countRTCLines (specPlaceRTC L tc) = 1 := by
  unfold specPlaceRTC
  by_cases h1 : L.any (fun l => (matchRTC l).isSome) = true
  · rw [if_pos h1, countRTC_map_replace]
    obtain ⟨l, hl, hs⟩ := List.any_eq_true.mp h1
    have hmem : l ∈ L.filter (fun l => (matchRTC l).isSome) := List.mem_filter.mpr ⟨hl, hs⟩
    have hpos : 0 < countRTCLines L := by
      unfold countRTCLines
      exact List.length_pos.mpr (List.ne_nil_of_mem hmem)
    omega
  · have hall : ∀ l ∈ L, matchRTC l = none := by
      intro l hl
      cases hm : matchRTC l with
      | none => rfl
      | some k => exact absurd (List.any_eq_true.mpr ⟨l, hl, by rw [hm]; rfl⟩) h1
    rw [if_neg h1]
    by_cases ha : L.any (fun l => isPre aaLit l) = true
    · rw [if_pos ha]
      exact countRTC_insert tc hall ha
    · rw [if_neg ha]
      unfold countRTCLines
      rw [List.filter_append]
      have hr : (fun x => (matchRTC x).isSome) (rtcRep tc) = true := by
        simp only [matchRTC_rep]; rfl
      rw [List.filter_cons_of_pos (p := fun l => (matchRTC l).isSome) hr, List.filter_nil]
      rw [List.length_append]
      have h0 : countRTCLines L = 0 := countRTC_all_none hall
      unfold countRTCLines at h0
      simp only [List.length_cons, List.length_nil]
      omega

/-! ## The `alwaysApply` line census is preserved by the rewrite -/

theorem isPre_aa_rtclit_append (Y : Str) : isPre aaLit (rtcLit ++ Y) = false := by
  rw [show (rtcLit : Str) = 'r' :: str "uleTokenCount:" from by decide]
  rw [show (aaLit : Str) = 'a' :: str "lwaysApply:" from by decide]
  rw [List.cons_append]
  simp [isPre, show ('a' == 'r') = false from by decide]

theorem isPre_aa_rtcRep_append (tc : Nat) (Y : Str) :
    isPre aaLit (rtcRep tc ++ Y) = false := by
  rw [rtcRep_split, List.append_assoc]
  exact isPre_aa_rtclit_append _

theorem isPre_aa_rtcRep (tc : Nat) : isPre aaLit (rtcRep tc) = false := by
  have h := isPre_aa_rtcRep_append tc []
  simpa using h

theorem isPre_aa_replace (tc : Nat) (l : Str) :
    isPre aaLit (replaceInLine tc l) = isPre aaLit l := by
  cases hm : matchRTC l with
  | none => rw [replaceInLine_of_none hm]
  | some k =>
    rw [replaceInLine_of_match hm tc]
    have hp : isPre rtcLit l = true := by
      by_contra hq
      rw [matchRTC_none_of_not_pre (by simpa using hq)] at hm
      cases hm
    obtain ⟨r1, rfl⟩ := isPre_exists hp
    rw [isPre_aa_rtcRep_append, isPre_aa_rtclit_append]

theorem aacount_map_replace (L : List Str) (tc : Nat) :
    ((L.map (replaceInLine tc)).filter (fun l => isPre aaLit l)).length
      = (L.filter (fun l => isPre aaLit l)).length := by
  induction L with
  | nil => rfl
  | cons l L ih =>
    rw [List.map_cons, List.filter_cons, List.filter_cons, isPre_aa_replace]
    by_cases hp : isPre aaLit l = true
    · simp only [hp, if_true, List.length_cons, ih]
    · simp only [hp, Bool.false_eq_true, if_false, ih]

theorem aacount_insert (L : List Str) (tc : Nat) :
    ((specInsertBeforeAA tc L).filter (fun l => isPre aaLit l)).length
      = (L.filter (fun l => isPre aaLit l)).length := by
  induction L with
  | nil => rfl
  | cons l L ih =>
    simp only [specInsertBeforeAA]
    by_cases hp : isPre aaLit l = true
    · rw [if_pos hp]
      rw [List.filter_cons_of_neg (p := fun l => isPre aaLit l)
        (by simp [isPre_aa_rtcRep tc])]
    · rw [if_neg (by simpa using hp)]
      have hp2 : isPre aaLit l = false := by simpa using hp
      rw [List.filter_cons_of_neg (p := fun l => isPre aaLit l) (by simp [hp2])]
      rw [List.filter_cons_of_neg (p := fun l => isPre aaLit l) (by simp [hp2])]
      exact ih

theorem aacount_specPlace (L : List Str) (tc : Nat) :
    ((specPlaceRTC L tc).filter (fun l => isPre aaLit l)).length
      = (L.filter (fun l => isPre aaLit l)).length := by
  unfold specPlaceRTC
  by_cases h1 : L.any (fun l => (matchRTC l).isSome) = true
  · rw [if_pos h1]
    exact aacount_map_replace L tc
  · rw [if_neg h1]
    by_cases ha : L.any (fun l => isPre aaLit l) = true
    · rw [if_pos ha]
      exact aacount_insert L tc
    · rw [if_neg ha]
      rw [List.filter_append]
      rw [List.filter_cons_of_neg (p := fun l => isPre aaLit l)
        (by simp [isPre_aa_rtcRep tc]), List.filter_nil]
      simp

/-! ## Characterization of the delimiter scan as a first-occurrence search -/

theorem findAux_spec {pat : Str} :
    ∀ {s : Str} {i0 j : Nat}, findAux pat s i0 = some j →
      i0 ≤ j ∧ isPre pat (s.drop (j - i0)) = true := by
  intro s
  induction s with
  | nil => intro i0 j h; simp [findAux] at h
  | cons c rest ih =>
    intro i0 j h
    simp only [findAux] at h
    by_cases hp : isPre pat (c :: rest) = true
    · rw [if_pos hp] at h
      simp only [Option.some.injEq] at h
      subst h
      exact ⟨Nat.le_refl _, by simpa using hp⟩
    · rw [if_neg hp] at h
      obtain ⟨h1, h2⟩ := ih h
      refine ⟨by omega, ?_⟩
      have he : j - i0 = (j - (i0 + 1)) + 1 := by omega
      rw [he, List.drop_succ_cons]
      exact h2

theorem findAux_min {pat : Str} :
    ∀ {s : Str} {i0 j : Nat}, findAux pat s i0 = some j →
      ∀ j2, i0 ≤ j2 → j2 < j → isPre pat (s.drop (j2 - i0)) = false := by
  intro s
  induction s with
  | nil => intro i0 j h; simp [findAux] at h
  | cons c rest ih =>
    intro i0 j h j2 hj2 hlt
    simp only [findAux] at h
    by_cases hp : isPre pat (c :: rest) = true
    · rw [if_pos hp] at h
      simp only [Option.some.injEq] at h
      omega
    · rw [if_neg hp] at h
      by_cases he : j2 = i0
      · subst he
        simp only [Nat.sub_self, List.drop_zero]
        simpa using hp
      · have he2 : j2 - i0 = (j2 - (i0 + 1)) + 1 := by omega
        rw [he2, List.drop_succ_cons]
        exact ih h j2 (by omega) hlt

theorem findFrom3_spec {content : Str} {i : Nat} (h : findFrom3 content = some i) :
    3 ≤ i ∧ isPre ddd (content.drop i) = true
      ∧ ∀ j, 3 ≤ j → j < i → isPre ddd (content.drop j) = false := by
  unfold findFrom3 at h
  obtain ⟨h1, h2⟩ := findAux_spec h
  refine ⟨h1, ?_, ?_⟩
  · rw [List.drop_drop] at h2
    rw [show 3 + (i - 3) = i from by omega] at h2
    exact h2
  · intro j hj3 hji
    have h3 := findAux_min h j hj3 hji
    rw [List.drop_drop] at h3
    rw [show 3 + (j - 3) = j from by omega] at h3
    exact h3

theorem extract_unchanged_iff (content : Str) :
    (extract_content_from_mdc content = content) ↔ findFrom3 content = none := by
  constructor
  · intro h
    cases hf : findFrom3 content with
    | none => rfl
    | some i =>
      exfalso
      have hextract : extract_content_from_mdc content = lstrip (content.drop (i + 3)) := by
        unfold extract_content_from_mdc
        rw [hf]
      rw [hextract] at h
      obtain ⟨h3, hpre, _⟩ := findFrom3_spec hf
      have hlen : (ddd : Str).length ≤ (content.drop i).length := isPre_length hpre
      simp only [List.length_drop] at hlen
      have hddd : (ddd : Str).length = 3 := rfl
      rw [hddd] at hlen
      have hlstrip : (lstrip (content.drop (i + 3))).length ≤ content.length - (i + 3) := by
        have hsub := (List.dropWhile_sublist (l := content.drop (i + 3)) isSpace).length_le
        simpa [lstrip, List.length_drop] using hsub
      have hlencontent := congrArg List.length h
      omega
  · intro h
    unfold extract_content_from_mdc
    rw [h]

/-! ## The accumulation loop of `main` -/

theorem runTotals_aux (tok : Str → Nat) (upd : Bool) :
    ∀ (files : List Str) (a b : Nat),
      files.foldl (fun acc c =>
        let n := (process_rule_file tok c upd).1
        (acc.1 + n, if isAlwaysApplied (fileAfterProcess tok c upd) then acc.2 + n else acc.2))
        (a, b)
      = (a + (files.map (fun c => tok (extract_content_from_mdc c))).sum,
         b + ((files.filter (fun c => isAlwaysApplied (fileAfterProcess tok c upd))).map
           (fun c => tok (extract_content_from_mdc c))).sum) := by
  intro files
  induction files with
  | nil => intro a b; simp
  | cons c files ih =>
    intro a b
    rw [List.foldl_cons]
    rw [ih]
    have hn : (process_rule_file tok c upd).1 = tok (extract_content_from_mdc c) := rfl
    by_cases hA : isAlwaysApplied (fileAfterProcess tok c upd) = true
    · rw [List.filter_cons_of_pos (p := fun c => isAlwaysApplied (fileAfterProcess tok c upd)) hA]
      simp only [hn, hA, if_true, List.map_cons, List.sum_cons, Prod.mk.injEq]
      exact ⟨Nat.add_assoc a _ _, Nat.add_assoc b _ _⟩
    · have hA2 : isAlwaysApplied (fileAfterProcess tok c upd) = false := by simpa using hA
      rw [List.filter_cons_of_neg (p := fun c => isAlwaysApplied (fileAfterProcess tok c upd))
        (by simp [hA2])]
      simp only [hn, hA2, Bool.false_eq_true, if_false, List.map_cons, List.sum_cons,
        Prod.mk.injEq]
      exact ⟨Nat.add_assoc a _ _, trivial⟩

theorem runTotals_eq (tok : Str → Nat) (upd : Bool) (files : List Str) :
    runTotals tok upd files
      = ((files.map (fun c => tok (extract_content_from_mdc c))).sum,
         ((files.filter (fun c => isAlwaysApplied (fileAfterProcess tok c upd))).map
           (fun c => tok (extract_content_from_mdc c))).sum) := by
  unfold runTotals
  rw [runTotals_aux tok upd files 0 0]
  simp

theorem runTotals_fst_upd (tok : Str → Nat) (files : List Str) (u1 u2 : Bool) :
    (runTotals tok u1 files).1 = (runTotals tok u2 files).1 := by
  rw [runTotals_eq, runTotals_eq]

/-! ## Control flow of `main` -/

theorem mainOutcome_eq (tok : Str → Nat) (upd : Bool) (env : Env) :
    mainOutcome tok upd env
      = if startupFails env = true then .earlyExit 1
        else if (runTotals tok upd (selectedFiles env)).1 = 0 then .divisionByZero
        else .completed (runTotals tok upd (selectedFiles env)).1
            (runTotals tok upd (selectedFiles env)).2 := by
  unfold mainOutcome startupFails
  by_cases h1 : (!env.tokAvailable) = true
  · have hs : (!env.tokAvailable || !env.rulesDirExists
        || (env.singleRule && !env.ruleFileExists) || (selectedFiles env).isEmpty) = true := by
      simp [h1]
    rw [if_pos h1, if_pos hs]
  · have h1f : (!env.tokAvailable) = false := by simpa using h1
    rw [if_neg h1]
    by_cases h2 : (!env.rulesDirExists) = true
    · have hs : (!env.tokAvailable || !env.rulesDirExists
          || (env.singleRule && !env.ruleFileExists) || (selectedFiles env).isEmpty)
            = true := by
        simp [h2]
      rw [if_pos h2, if_pos hs]
    · have h2f : (!env.rulesDirExists) = false := by simpa using h2
      rw [if_neg h2]
      by_cases h3 : (env.singleRule && !env.ruleFileExists) = true
      · have hs : (!env.tokAvailable || !env.rulesDirExists
            || (env.singleRule && !env.ruleFileExists) || (selectedFiles env).isEmpty)
              = true := by
          simp [h3]
        rw [if_pos h3, if_pos hs]
      · have h3f : (env.singleRule && !env.ruleFileExists) = false := by simpa using h3
        rw [if_neg h3]
        by_cases h4 : (selectedFiles env).isEmpty = true
        · have hs : (!env.tokAvailable || !env.rulesDirExists
              || (env.singleRule && !env.ruleFileExists) || (selectedFiles env).isEmpty)
                = true := by
            simp [h4]
          rw [if_pos h4, if_pos hs]
        · have h4f : (selectedFiles env).isEmpty = false := by simpa using h4
          have hs : ¬((!env.tokAvailable || !env.rulesDirExists
              || (env.singleRule && !env.ruleFileExists) || (selectedFiles env).isEmpty)
                = true) := by
            simp [h1f, h2f, h3f, h4f]
          rw [if_neg h4, if_neg hs]

/-! ## Claim theorems -/

/-- Claim C1, counterexample: the document `abc\n---\ndef` does not start with
the opening delimiter, yet the extractor does not return it unchanged — it
splits at the embedded `---` and returns `def`. -/
theorem c1_counterexample :
    extract_content_from_mdc (str "abc\n---\ndef") = str "def"
      ∧ extract_content_from_mdc (str "abc\n---\ndef") ≠ str "abc\n---\ndef"
      ∧ isPre ddd (str "abc\n---\ndef") = false := by
  refine ⟨by decide, ?_, by decide⟩
  decide

/-- Claim C1 (amended): the extractor returns the document unchanged exactly
when no occurrence of the substring `---` exists at byte offset 3 or later;
in particular a document with no frontmatter delimiters at all is returned
unchanged, but a document that merely fails to start with `---` at byte 0 can
still be split. -/
theorem c1_extract_unchanged_iff (content : Str) :
    (extract_content_from_mdc content = content) ↔ findFrom3 content = none :=
  extract_unchanged_iff content

/-- Claim C2, counterexample: in `---\nt: a---b\n---\nbody` the three dashes
embedded in the middle of the second line (at offset 8, whose preceding
character is `a`, not a newline) are treated as the closing delimiter: the
extractor returns `b\n---\nbody` instead of `body`. -/
theorem c2_counterexample :
    findFrom3 (str "---\nt: a---b\n---\nbody") = some 8
      ∧ (str "---\nt: a---b\n---\nbody").get? 7 = some 'a'
      ∧ extract_content_from_mdc (str "---\nt: a---b\n---\nbody") = str "b\n---\nbody"
      ∧ extract_content_from_mdc (str "---\nt: a---b\n---\nbody") ≠ str "body" := by
  refine ⟨by decide, by decide, by decide, ?_⟩
  decide

/-- Claim C2 (amended): both the extractor and the updater locate the closing
delimiter as the first occurrence of the raw substring `---` at byte offset 3
or later, regardless of whether that occurrence forms a whole line; the
position returned by the scan is the least such offset, and the extractor
returns the left-stripped text after it. -/
theorem c2_find_first_occurrence (content : Str) (i : Nat)
    (h : findFrom3 content = some i) :
    3 ≤ i ∧ isPre ddd (content.drop i) = true
      ∧ (∀ j, 3 ≤ j → j < i → isPre ddd (content.drop j) = false)
      ∧ extract_content_from_mdc content = lstrip (content.drop (i + 3)) := by
  obtain ⟨h1, h2, h3⟩ := findFrom3_spec h
  refine ⟨h1, h2, h3, ?_⟩
  unfold extract_content_from_mdc
  rw [h]

/-- Witness for C2 at the concrete document of the counterexample. -/
theorem c2_witness :
    findFrom3 (str "---\nt: a---b\n---\nbody") = some 8
      ∧ (3 ≤ 8 ∧ isPre ddd ((str "---\nt: a---b\n---\nbody").drop 8) = true
        ∧ (∀ j, 3 ≤ j → j < 8 →
            isPre ddd ((str "---\nt: a---b\n---\nbody").drop j) = false)
        ∧ extract_content_from_mdc (str "---\nt: a---b\n---\nbody")
            = lstrip ((str "---\nt: a---b\n---\nbody").drop (8 + 3))) :=
  ⟨by decide, c2_find_first_occurrence (str "---\nt: a---b\n---\nbody") 8 (by decide)⟩

/-- Claim C3, counterexample: a file whose frontmatter has no `alwaysApply`
field but whose body contains the line `alwaysApply: true` is counted in the
always-applied subtotal (here with the length tokenizer: the whole grand
total, 18, lands in the subtotal), while the spec reading of the subtotal
(restricted to the frontmatter) yields 0. -/
theorem c3_counterexample :
    (runTotals (fun s => s.length) false
        [str "---\ndescription: x\n---\nalwaysApply: true\n"]).2 = 18
      ∧ specAlwaysSubtotal (fun s => s.length)
          [str "---\ndescription: x\n---\nalwaysApply: true\n"] = 0
      ∧ (18 : Nat) ≠ 0 := by
  refine ⟨by decide, by decide, by decide⟩

/-- Claim C3 (amended): the grand total sums the token counts of the
extracted bodies of all files, and the always-applied subtotal sums the
token counts of exactly those files whose full re-read content (frontmatter
or body alike) matches the line-anchored `alwaysApply:\s*true` pattern. -/
theorem c3_totals_characterization (tok : Str → Nat) (upd : Bool) (files : List Str) :
    runTotals tok upd files
      = ((files.map (fun c => tok (extract_content_from_mdc c))).sum,
         ((files.filter (fun c => isAlwaysApplied (fileAfterProcess tok c upd))).map
           (fun c => tok (extract_content_from_mdc c))).sum) :=
  runTotals_eq tok upd files

/-- Claim C4: on a well-formed frontmatter block, the updater places the
field by exactly the spec's rules — an existing line-anchored
`ruleTokenCount` field has its value replaced in place with its position
preserved; otherwise the new line is inserted immediately before the
`alwaysApply` line; otherwise it is appended at the end of the block. -/
theorem c4_update_placement (L : List Str) (tc : Nat) (hwf : WFLines L)
    (hAA : (L.filter (fun l => isPre aaLit l)).length ≤ 1) :
    updateFM (joinLines L) tc = joinLines (specPlaceRTC L tc) :=
  updateFM_join L tc hwf.ne hwf.noNL hwf.rtcTotal hAA

/-- Witness for C4 on a concrete three-line frontmatter. -/
theorem c4_witness :
    updateFM (joinLines [str "description: demo", str "ruleTokenCount: 5",
        str "alwaysApply: true"]) 42
      = joinLines (specPlaceRTC [str "description: demo", str "ruleTokenCount: 5",
          str "alwaysApply: true"] 42) :=
  c4_update_placement
    [str "description: demo", str "ruleTokenCount: 5", str "alwaysApply: true"] 42
    ⟨by decide, by decide, by decide, by decide, by decide, by decide, by decide⟩
    (by decide)

/-- Claim C5: a successful update rewrites the document as opening
delimiter, updated (trimmed) frontmatter, closing delimiter, then the
original post-delimiter content unchanged; re-extracting the body of the
rewritten document gives exactly the body of the original document, and the
updated frontmatter contains the line-anchored `ruleTokenCount` field. -/
theorem c5_roundtrip (L : List Str) (rest : Str) (tc : Nat) (hwf : WFLines L)
    (hAA : (L.filter (fun l => isPre aaLit l)).length ≤ 1) :
    update_rule_token_count (mkDoc L rest) tc
        = .updated (mkDoc (specPlaceRTC L tc) rest)
      ∧ extract_content_from_mdc (mkDoc (specPlaceRTC L tc) rest)
          = extract_content_from_mdc (mkDoc L rest)
      ∧ searchML matchRTC (joinLines (specPlaceRTC L tc)) = true := by
  have hwf2 : WFLines (specPlaceRTC L tc) := specPlace_wf hwf
  refine ⟨update_mkDoc_eq L rest tc hwf hAA, ?_, ?_⟩
  · rw [extract_mkDoc _ _ hwf2.noTriple, extract_mkDoc _ _ hwf.noTriple]
  · rw [searchML_join _ matchRTC_nil hwf2.noNL
      (fun l hl t => wf_hext_rtc hwf2.rtcTotal hl t)]
    exact specPlace_any_rtc L tc

/-- Witness for C5 on a concrete document. -/
theorem c5_witness :
    update_rule_token_count
        (mkDoc [str "description: demo", str "alwaysApply: true"] (str "\nhello world\n")) 7
        = .updated (mkDoc (specPlaceRTC [str "description: demo",
            str "alwaysApply: true"] 7) (str "\nhello world\n"))
      ∧ extract_content_from_mdc (mkDoc (specPlaceRTC [str "description: demo",
            str "alwaysApply: true"] 7) (str "\nhello world\n"))
          = extract_content_from_mdc
              (mkDoc [str "description: demo", str "alwaysApply: true"] (str "\nhello world\n"))
      ∧ searchML matchRTC (joinLines (specPlaceRTC [str "description: demo",
          str "alwaysApply: true"] 7)) = true :=
  c5_roundtrip [str "description: demo", str "alwaysApply: true"] (str "\nhello world\n") 7
    ⟨by decide, by decide, by decide, by decide, by decide, by decide, by decide⟩
    (by decide)

/-- Claim C6: updating twice in succession is idempotent — the first update
writes the rewritten lines, the re-extracted body gives the same token
count, the second update rewrites the file to exactly the same content
(replacing the field written by the first run rather than duplicating it),
and the rewritten frontmatter carries exactly one `ruleTokenCount` line. -/
theorem c6_idempotent (tok : Str → Nat) (L : List Str) (rest : Str) (hwf : WFLines L)
    (hAA : (L.filter (fun l => isPre aaLit l)).length ≤ 1)
    (hRTC : countRTCLines L ≤ 1) :
    update_rule_token_count (mkDoc L rest)
        (tok (extract_content_from_mdc (mkDoc L rest)))
      = .updated (mkDoc
          (specPlaceRTC L (tok (extract_content_from_mdc (mkDoc L rest)))) rest)
    ∧ tok (extract_content_from_mdc (mkDoc
        (specPlaceRTC L (tok (extract_content_from_mdc (mkDoc L rest)))) rest))
      = tok (extract_content_from_mdc (mkDoc L rest))
    ∧ update_rule_token_count
        (mkDoc (specPlaceRTC L (tok (extract_content_from_mdc (mkDoc L rest)))) rest)
        (tok (extract_content_from_mdc (mkDoc
          (specPlaceRTC L (tok (extract_content_from_mdc (mkDoc L rest)))) rest)))
      = .updated (mkDoc
          (specPlaceRTC L (tok (extract_content_from_mdc (mkDoc L rest)))) rest)
    ∧ countRTCLines (specPlaceRTC L (tok (extract_content_from_mdc (mkDoc L rest)))) = 1 := by
  have hwf2 : WFLines (specPlaceRTC L (tok (extract_content_from_mdc (mkDoc L rest)))) :=
    specPlace_wf hwf
  have hext2 : extract_content_from_mdc (mkDoc
      (specPlaceRTC L (tok (extract_content_from_mdc (mkDoc L rest)))) rest)
      = extract_content_from_mdc (mkDoc L rest) := by
    rw [extract_mkDoc _ _ hwf2.noTriple, extract_mkDoc _ _ hwf.noTriple]
  have htc2 : tok (extract_content_from_mdc (mkDoc
      (specPlaceRTC L (tok (extract_content_from_mdc (mkDoc L rest)))) rest))
      = tok (extract_content_from_mdc (mkDoc L rest)) := by
    rw [hext2]
  have hAA2 : ((specPlaceRTC L (tok (extract_content_from_mdc (mkDoc L rest)))).filter
      (fun l => isPre aaLit l)).length ≤ 1 := by
    rw [aacount_specPlace]
    exact hAA
  refine ⟨update_mkDoc_eq L rest _ hwf hAA, htc2, ?_,
    countRTC_specPlace L _ hRTC⟩
  rw [htc2]
  rw [update_mkDoc_eq _ rest _ hwf2 hAA2, specPlace_idem]

/-- Witness for C6 on a concrete document with the length tokenizer. -/
theorem c6_witness :
    update_rule_token_count (mkDoc [str "ruleTokenCount: 5", str "alwaysApply: true"]
        (str "\nhello\n"))
        ((fun s => s.length) (extract_content_from_mdc
          (mkDoc [str "ruleTokenCount: 5", str "alwaysApply: true"] (str "\nhello\n"))))
      = .updated (mkDoc (specPlaceRTC [str "ruleTokenCount: 5", str "alwaysApply: true"]
          ((fun s => s.length) (extract_content_from_mdc
            (mkDoc [str "ruleTokenCount: 5", str "alwaysApply: true"] (str "\nhello\n")))))
          (str "\nhello\n"))
    ∧ (fun s => s.length) (extract_content_from_mdc (mkDoc
        (specPlaceRTC [str "ruleTokenCount: 5", str "alwaysApply: true"]
          ((fun s => s.length) (extract_content_from_mdc
            (mkDoc [str "ruleTokenCount: 5", str "alwaysApply: true"] (str "\nhello\n")))))
        (str "\nhello\n")))
      = (fun s => s.length) (extract_content_from_mdc
          (mkDoc [str "ruleTokenCount: 5", str "alwaysApply: true"] (str "\nhello\n")))
    ∧ update_rule_token_count
        (mkDoc (specPlaceRTC [str "ruleTokenCount: 5", str "alwaysApply: true"]
          ((fun s => s.length) (extract_content_from_mdc
            (mkDoc [str "ruleTokenCount: 5", str "alwaysApply: true"] (str "\nhello\n")))))
          (str "\nhello\n"))
        ((fun s => s.length) (extract_content_from_mdc (mkDoc
          (specPlaceRTC [str "ruleTokenCount: 5", str "alwaysApply: true"]
            ((fun s => s.length) (extract_content_from_mdc
              (mkDoc [str "ruleTokenCount: 5", str "alwaysApply: true"] (str "\nhello\n")))))
          (str "\nhello\n"))))
      = .updated (mkDoc (specPlaceRTC [str "ruleTokenCount: 5", str "alwaysApply: true"]
          ((fun s => s.length) (extract_content_from_mdc
            (mkDoc [str "ruleTokenCount: 5", str "alwaysApply: true"] (str "\nhello\n")))))
          (str "\nhello\n"))
    ∧ countRTCLines (specPlaceRTC [str "ruleTokenCount: 5", str "alwaysApply: true"]
        ((fun s => s.length) (extract_content_from_mdc
          (mkDoc [str "ruleTokenCount: 5", str "alwaysApply: true"] (str "\nhello\n"))))) = 1 :=
  c6_idempotent (fun s => s.length) [str "ruleTokenCount: 5", str "alwaysApply: true"]
    (str "\nhello\n")
    ⟨by decide, by decide, by decide, by decide, by decide, by decide, by decide⟩
    (by decide) (by decide)

/-- Claim C7: on a document with well-formed frontmatter — an opening `---`
line, a frontmatter region free of embedded `---`, and a closing `---`
delimiter — the extractor returns exactly the text after the closing
delimiter, left-trimmed. -/
theorem c7_extract_wellformed (fm rest : Str) (h : hasDDD fm = false) :
    extract_content_from_mdc (mkDocFM fm rest) = lstrip rest :=
  extract_mkDocFM fm rest h

/-- Witness for C7 on a concrete document. -/
theorem c7_witness :
    hasDDD (str "alwaysApply: true") = false
      ∧ extract_content_from_mdc (mkDocFM (str "alwaysApply: true") (str "\nbody text"))
          = lstrip (str "\nbody text") :=
  ⟨by decide, c7_extract_wellformed (str "alwaysApply: true") (str "\nbody text") (by decide)⟩

/-- Claim C8: the updater refuses exactly when the document does not start
with the opening delimiter (no frontmatter) or when no closing delimiter
exists at offset 3 or later (malformed frontmatter); in every refusal case
the file content is left unmodified by the processing step, and in every
other case it produces rewritten content to be written back. -/
theorem c8_update_refusal (content : Str) (tc : Nat) :
    (update_rule_token_count content tc = .noFrontmatter ↔ isPre ddd content = false)
    ∧ (update_rule_token_count content tc = .malformed
        ↔ (isPre ddd content = true ∧ findFrom3 content = none))
    ∧ ((∃ n, update_rule_token_count content tc = .updated n)
        ↔ (isPre ddd content = true ∧ (findFrom3 content).isSome = true))
    ∧ ((isPre ddd content = false ∨ findFrom3 content = none) →
        ∀ tok : Str → Nat, fileAfterProcess tok content true = content) := by
  have hmain : ∀ tcx : Nat,
      (update_rule_token_count content tcx = .noFrontmatter
        ↔ isPre ddd content = false)
      ∧ (update_rule_token_count content tcx = .malformed
        ↔ (isPre ddd content = true ∧ findFrom3 content = none))
      ∧ ((∃ n, update_rule_token_count content tcx = .updated n)
        ↔ (isPre ddd content = true ∧ (findFrom3 content).isSome = true)) := by
    intro tcx
    unfold update_rule_token_count
    by_cases hp : isPre ddd content = true
    · rw [if_pos hp]
      cases hf : findFrom3 content with
      | none => refine ⟨?_, ?_, ?_⟩ <;> simp [hp, hf]
      | some e => refine ⟨?_, ?_, ?_⟩ <;> simp [hp, hf]
    · have hp2 : isPre ddd content = false := by simpa using hp
      rw [if_neg hp]
      refine ⟨?_, ?_, ?_⟩ <;> simp [hp2]
  obtain ⟨h1, h2, h3⟩ := hmain tc
  refine ⟨h1, h2, h3, ?_⟩
  intro href tok
  unfold fileAfterProcess
  rw [if_pos rfl]
  rcases href with hr | hr
  · rw [((hmain (tok (extract_content_from_mdc content))).1).mpr hr]
  · by_cases hp : isPre ddd content = true
    · rw [((hmain (tok (extract_content_from_mdc content))).2.1).mpr ⟨hp, hr⟩]
    · rw [((hmain (tok (extract_content_from_mdc content))).1).mpr (by simpa using hp)]

/-- Witness for C8 at a concrete document with no frontmatter. -/
theorem c8_witness :
    (update_rule_token_count (str "no frontmatter here") 5 = .noFrontmatter
        ↔ isPre ddd (str "no frontmatter here") = false)
      ∧ (update_rule_token_count (str "no frontmatter here") 5 = .malformed
          ↔ (isPre ddd (str "no frontmatter here") = true
            ∧ findFrom3 (str "no frontmatter here") = none))
      ∧ ((∃ n, update_rule_token_count (str "no frontmatter here") 5 = .updated n)
          ↔ (isPre ddd (str "no frontmatter here") = true
            ∧ (findFrom3 (str "no frontmatter here")).isSome = true))
      ∧ ((isPre ddd (str "no frontmatter here") = false
            ∨ findFrom3 (str "no frontmatter here") = none) →
          ∀ tok : Str → Nat, fileAfterProcess tok (str "no frontmatter here") true
            = str "no frontmatter here") :=
  c8_update_refusal (str "no frontmatter here") 5

/-- Claim C9: the program exits non-zero before any per-file work exactly in
the four startup situations (tokenizer unavailable, missing rules directory,
missing named rule file, empty file selection); it completes normally — with
exit status 0 — exactly when startup succeeds and the grand total is
non-zero, regardless of the update flag, whose per-file refusals never
change the totals' first component. -/
theorem c9_exit_codes (tok : Str → Nat) (upd : Bool) (env : Env) :
    ((∃ c, mainOutcome tok upd env = .earlyExit c ∧ c ≠ 0) ↔ startupFails env = true)
    ∧ ((∃ t a, mainOutcome tok upd env = .completed t a)
        ↔ (startupFails env = false ∧ (runTotals tok upd (selectedFiles env)).1 ≠ 0))
    ∧ (runTotals tok true (selectedFiles env)).1
        = (runTotals tok false (selectedFiles env)).1 := by
  refine ⟨?_, ?_, runTotals_fst_upd tok (selectedFiles env) true false⟩ <;>
  · rw [mainOutcome_eq]
    by_cases hs : startupFails env = true
    · rw [if_pos hs]
      simp [hs]
    · have hs2 : startupFails env = false := by simpa using hs
      rw [if_neg hs]
      by_cases ht : (runTotals tok upd (selectedFiles env)).1 = 0
      · rw [if_pos ht]
        simp [hs2, ht]
      · rw [if_neg ht]
        simp [hs2, ht]

/-- Claim C10: when startup succeeds but the grand total of token counts is
zero, the summary percentage divides by zero and the run ends in the
uncaught error instead of completing; the final summary is produced only
when the grand total is positive. -/
theorem c10_division_by_zero (tok : Str → Nat) (upd : Bool) (env : Env) :
    (mainOutcome tok upd env = .divisionByZero
      ↔ (startupFails env = false ∧ (runTotals tok upd (selectedFiles env)).1 = 0))
    ∧ (∀ t a, mainOutcome tok upd env = .completed t a → 0 < t) := by
  rw [mainOutcome_eq]
  by_cases hs : startupFails env = true
  · rw [if_pos hs]
    simp [hs]
  · have hs2 : startupFails env = false := by simpa using hs
    rw [if_neg hs]
    by_cases ht : (runTotals tok upd (selectedFiles env)).1 = 0
    · rw [if_pos ht]
      simp [hs2, ht]
    · rw [if_neg ht]
      constructor
      · simp [hs2, ht]
      · intro t a hta
        have : t = (runTotals tok upd (selectedFiles env)).1 := by
          cases hta
          rfl
        omega

end CalcRuleTokens
